import Mathlib

/-!
Verification of the SPIMI inverted-index builder, k-way block merger, index
reader and BM25 ranker of the SEG301 search-engine repository
(src/indexer/spimi.py, src/indexer/merging.py, src/indexer/reader.py,
src/ranking/bm25.py).

The Python code is shallowly embedded:
* a Python `dict` is an insertion-ordered association list (`dlookup`,
  `dinsert`, `dupdate` mirror `d[k]`, `d[k] = v` and `a.update(b)`);
* Python strings compare lexicographically by code point (`strLtb`);
* `pickle.dumps` of a posting dict is modelled by `serPostings`, an abstract
  deterministic, self-delimiting, injective serializer (one token per entry
  plus a header), with `deserPostings` as `pickle.loads`;
* `sys.getsizeof(self.dictionary) >= self.block_size_limit` is abstracted by
  an arbitrary flush policy `policy : dictionary → Bool`, since the size
  check is a pure function of the in-memory dictionary;
* the `heapq` min-heap of `merge_blocks` always holds exactly the front entry
  of every non-exhausted block stream, keyed by `(term, stream_index)`, so a
  pop is selection of the minimal `(term, index)` front (`pickMinAux`).
-/

/-! ## Python string order (lexicographic by code point) -/

/-- Strict lexicographic order on character lists, comparing code points:
the order Python uses for `str` (`sorted`, `<`, tuple comparison in heapq). -/
def charsLtb : List Char → List Char → Bool
  | [], [] => false
  | [], _ :: _ => true
  | _ :: _, [] => false
  | a :: as, b :: bs => if a < b then true else if b < a then false else charsLtb as bs

/-- Python string `<`. -/
def strLtb (a b : String) : Bool := charsLtb a.data b.data

/-- Python string `<=` (total preorder used when sorting). -/
def strLeb (a b : String) : Bool := !(strLtb b a)

theorem charsLtb_irrefl (l : List Char) : charsLtb l l = false := by
  induction l with
  | nil => rfl
  | cons a as ih => simp [charsLtb, ih]

theorem charsLtb_trans {a b c : List Char} (h1 : charsLtb a b = true)
    (h2 : charsLtb b c = true) : charsLtb a c = true := by
  induction a generalizing b c with
  | nil =>
    cases b with
    | nil => simp [charsLtb] at h1
    | cons y ys =>
      cases c with
      | nil => simp [charsLtb] at h2
      | cons z zs => simp [charsLtb]
  | cons x xs ih =>
    cases b with
    | nil => simp [charsLtb] at h1
    | cons y ys =>
      cases c with
      | nil => simp [charsLtb] at h2
      | cons z zs =>
        simp only [charsLtb] at h1 h2 ⊢
        rcases lt_trichotomy x y with hxy | hxy | hxy
        · rcases lt_trichotomy y z with hyz | hyz | hyz
          · simp [lt_trans hxy hyz]
          · subst hyz; simp [hxy]
          · simp [not_lt.mpr (le_of_lt hyz), hyz] at h2
        · subst hxy
          simp only [lt_irrefl, if_false] at h1
          rcases lt_trichotomy x z with hxz | hxz | hxz
          · simp [hxz]
          · subst hxz
            simp only [lt_irrefl, if_false] at h2 ⊢
            exact ih h1 h2
          · simp [not_lt.mpr (le_of_lt hxz), hxz] at h2
        · simp [not_lt.mpr (le_of_lt hxy), hxy] at h1

theorem charsLtb_antisymm {a b : List Char} (h1 : charsLtb a b = false)
    (h2 : charsLtb b a = false) : a = b := by
  induction a generalizing b with
  | nil =>
    cases b with
    | nil => rfl
    | cons y ys => simp [charsLtb] at h1
  | cons x xs ih =>
    cases b with
    | nil => simp [charsLtb] at h2
    | cons y ys =>
      simp only [charsLtb] at h1 h2
      rcases lt_trichotomy x y with hxy | hxy | hxy
      · simp [hxy] at h1
      · subst hxy
        simp only [lt_irrefl, if_false] at h1 h2
        rw [ih h1 h2]
      · simp [hxy] at h2

theorem strLtb_irrefl (s : String) : strLtb s s = false := charsLtb_irrefl s.data

theorem strLtb_trans {a b c : String} (h1 : strLtb a b = true)
    (h2 : strLtb b c = true) : strLtb a c = true := charsLtb_trans h1 h2

theorem strLtb_antisymm {a b : String} (h1 : strLtb a b = false)
    (h2 : strLtb b a = false) : a = b :=
  String.ext (charsLtb_antisymm h1 h2)

theorem strLtb_asymm {a b : String} (h : strLtb a b = true) : strLtb b a = false := by
  cases h2 : strLtb b a with
  | false => rfl
  | true => exact absurd (strLtb_trans h h2) (by simp [strLtb_irrefl])

theorem strLeb_total (a b : String) : strLeb a b = true ∨ strLeb b a = true := by
  by_cases h : strLtb b a = true
  · right; simp [strLeb, strLtb_asymm h]
  · left; simp [strLeb, h]

theorem strLeb_trans {a b c : String} (h1 : strLeb a b = true)
    (h2 : strLeb b c = true) : strLeb a c = true := by
  simp only [strLeb, Bool.not_eq_true'] at h1 h2 ⊢
  cases h : strLtb c a with
  | false => rfl
  | true =>
    exfalso
    cases hbc : strLtb b c with
    | true => exact absurd (strLtb_trans hbc h) (by simp [h1])
    | false =>
      have hbceq : b = c := strLtb_antisymm hbc h2
      subst hbceq
      simp [h] at h1

/-- From not-less-than in both directions, equality. -/
theorem strLeb_antisymm {a b : String} (h1 : strLeb a b = true)
    (h2 : strLeb b a = true) : a = b := by
  simp only [strLeb, Bool.not_eq_true'] at h1 h2
  exact strLtb_antisymm h2 h1

/-! ## Python dict as insertion-ordered association list -/

/-- First-match lookup, `d[k]` / `k in d`. Python dicts have unique keys, so
the first match is the only one on every dict this development builds. -/
def dlookup {β : Type} : List (String × β) → String → Option β
  | [], _ => none
  | (k, v) :: rest, key => if k = key then some v else dlookup rest key

/-- Python `d[key] = val`: overwrite in place if the key is present, else
append at the end (dicts preserve insertion order). -/
def dinsert {β : Type} : List (String × β) → String → β → List (String × β)
  | [], key, val => [(key, val)]
  | (k, v) :: rest, key, val =>
    if k = key then (k, val) :: rest else (k, v) :: dinsert rest key val

/-- Python `a.update(b)`: insert every entry of `b` into `a`, in order. -/
def dupdate {β : Type} (a b : List (String × β)) : List (String × β) :=
  b.foldl (fun acc p => dinsert acc p.1 p.2) a

theorem dlookup_dinsert_self {β : Type} (d : List (String × β)) (k : String) (v : β) :
    dlookup (dinsert d k v) k = some v := by
  induction d with
  | nil => simp [dinsert, dlookup]
  | cons p rest ih =>
    by_cases h : p.1 = k
    · simp [dinsert, dlookup, h]
    · simp [dinsert, dlookup, h, ih]

theorem dlookup_dinsert_ne {β : Type} (d : List (String × β)) {k k' : String} (v : β)
    (h : k ≠ k') : dlookup (dinsert d k v) k' = dlookup d k' := by
  induction d with
  | nil => simp [dinsert, dlookup, h]
  | cons p rest ih =>
    by_cases hp : p.1 = k
    · simp [dinsert, dlookup, hp, h]
    · simp [dinsert, dlookup, hp, ih]

theorem map_fst_dinsert {β : Type} (d : List (String × β)) (k : String) (v : β) :
    (dinsert d k v).map Prod.fst =
      if (dlookup d k).isSome then d.map Prod.fst else d.map Prod.fst ++ [k] := by
  induction d with
  | nil => simp [dinsert, dlookup]
  | cons p rest ih =>
    by_cases h : p.1 = k
    · simp [dinsert, dlookup, h]
    · simp [dinsert, dlookup, h, ih]
      by_cases h2 : (dlookup rest k).isSome <;> simp [h2]

theorem dlookup_isSome_iff_mem {β : Type} (d : List (String × β)) (k : String) :
    (dlookup d k).isSome = true ↔ k ∈ d.map Prod.fst := by
  induction d with
  | nil => simp [dlookup]
  | cons p rest ih =>
    by_cases h : p.1 = k
    · simp [dlookup, h]
    · simp [dlookup, h, ih, Ne.symm h]

theorem dlookup_eq_none_iff_not_mem {β : Type} (d : List (String × β)) (k : String) :
    dlookup d k = none ↔ k ∉ d.map Prod.fst := by
  rw [← dlookup_isSome_iff_mem]
  cases dlookup d k <;> simp

theorem nodup_map_fst_dinsert {β : Type} {d : List (String × β)} (k : String) (v : β)
    (h : (d.map Prod.fst).Nodup) : ((dinsert d k v).map Prod.fst).Nodup := by
  rw [map_fst_dinsert]
  by_cases hk : (dlookup d k).isSome
  · simpa [hk]
  · simp only [hk, if_false]
    have : k ∉ d.map Prod.fst := by
      rw [← dlookup_isSome_iff_mem]; simp [hk]
    simp [List.nodup_append, h, this]

/-- Python `a.update(b)` looks up as: a key found in `b` takes `b`'s (unique)
value, otherwise `a`'s. -/
theorem dlookup_dupdate {β : Type} (a b : List (String × β)) (k : String)
    (hb : (b.map Prod.fst).Nodup) :
    dlookup (dupdate a b) k = (dlookup b k).or (dlookup a k) := by
  induction b generalizing a with
  | nil => simp [dupdate, dlookup]
  | cons p rest ih =>
    obtain ⟨k0, v0⟩ := p
    simp only [List.map_cons, List.nodup_cons] at hb
    have step : dupdate a ((k0, v0) :: rest) = dupdate (dinsert a k0 v0) rest := rfl
    rw [step, ih _ hb.2]
    by_cases h : k0 = k
    · subst h
      have : dlookup rest k0 = none := by
        rw [dlookup_eq_none_iff_not_mem]; exact hb.1
      simp [dlookup, this, dlookup_dinsert_self]
    · simp [dlookup, h, dlookup_dinsert_ne a v0 h]

theorem map_fst_dupdate_nodup {β : Type} (a b : List (String × β))
    (ha : (a.map Prod.fst).Nodup) : ((dupdate a b).map Prod.fst).Nodup := by
  induction b generalizing a with
  | nil => exact ha
  | cons p rest ih => exact ih _ (nodup_map_fst_dinsert p.1 p.2 ha)

theorem dupdate_ne_nil {β : Type} (a b : List (String × β)) (ha : a ≠ []) :
    dupdate a b ≠ [] := by
  induction b generalizing a with
  | nil => exact ha
  | cons p rest ih =>
    refine ih _ ?_
    cases a with
    | nil => exact absurd rfl ha
    | cons q qs =>
      obtain ⟨k, v⟩ := q
      by_cases h : k = p.1 <;> simp [dinsert, h]

/-! ## SPIMI indexer (src/indexer/spimi.py) -/

/-- In-memory term dictionary `{term: {doc_id: tf}}` of `SPIMIIndexer`. -/
abbrev TermDict := List (String × List (String × Nat))

/-- One block file's content: the list of `(term, postings)` pairs that
`write_block` pickles (`block_data`). -/
abbrev Block := List (String × List (String × Nat))

/-- State of a `SPIMIIndexer`, with `blocks` standing for the contents of the
block files written so far (in creation order, `block_i` at position `i-1`). -/
structure SPIMIState where
  dictionary : TermDict
  block_count : Nat
  blocks : List Block
  doc_lengths : List (String × Nat)
  total_length : Nat
  doc_count : Nat

/-- Fresh `SPIMIIndexer.__init__` state. -/
def initState : SPIMIState :=
  { dictionary := [], block_count := 0, blocks := [], doc_lengths := [],
    total_length := 0, doc_count := 0 }

/-- Lines 31-33 of spimi.py: `if doc_id not in self.dictionary[term]:
self.dictionary[term][doc_id] = 0` then `self.dictionary[term][doc_id] += 1`;
`self.dictionary` is a `defaultdict(dict)`, so a missing term starts at `{}`. -/
def addToken (dict : TermDict) (doc_id term : String) : TermDict :=
  let p := (dlookup dict term).getD []
  let tf := (dlookup p doc_id).getD 0
  dinsert dict term (dinsert p doc_id (tf + 1))

/-- The `for term in tokens` loop of `run_indexing` for one document. -/
def procTokens (dict : TermDict) (doc_id : String) (tokens : List String) : TermDict :=
  tokens.foldl (fun d t => addToken d doc_id t) dict

/-- Per-document part of the `run_indexing` loop body (stats plus tokens). -/
def processDoc (st : SPIMIState) (doc : String × List String) : SPIMIState :=
  { st with
    doc_lengths := dinsert st.doc_lengths doc.1 doc.2.length
    total_length := st.total_length + doc.2.length
    doc_count := st.doc_count + 1
    dictionary := procTokens st.dictionary doc.1 doc.2 }

/-- Order relation form of `strLeb`, for sorting. -/
def strLe (a b : String) : Prop := strLeb a b = true

instance : DecidableRel strLe := fun a b => by
  unfold strLe; infer_instance

instance : IsTotal String strLe := ⟨strLeb_total⟩

instance : IsTrans String strLe := ⟨fun _ _ _ => strLeb_trans⟩

/-- The `sorted(self.dictionary.keys())` of `write_block`. Python's `sorted`
is a stable sort; all stable sorts agree, so insertion sort models it. -/
def sortedTerms (dict : TermDict) : List String :=
  (dict.map Prod.fst).insertionSort strLe

/-- The `block_data` list built by `write_block`: entries in ascending term
order, each with its posting dict. -/
def blockData (dict : TermDict) : Block :=
  (sortedTerms dict).map fun t => (t, (dlookup dict t).getD [])

/-- `SPIMIIndexer.write_block`: append the sorted snapshot as a new block
file, bump `block_count`, reset the dictionary. -/
def writeBlock (st : SPIMIState) : SPIMIState :=
  { st with
    block_count := st.block_count + 1
    blocks := st.blocks ++ [blockData st.dictionary]
    dictionary := [] }

/-- `SPIMIIndexer.run_indexing`. The memory check
`sys.getsizeof(self.dictionary) >= self.block_size_limit` is a pure function
of the in-memory dictionary, abstracted as `policy`; after the stream is
exhausted the non-empty dictionary is flushed once more. -/
def runIndexing (policy : TermDict → Bool) : SPIMIState → List (String × List String) → SPIMIState
  | st, [] => if st.dictionary.isEmpty then st else writeBlock st
  | st, doc :: rest =>
    let st1 := processDoc st doc
    runIndexing policy (if policy st1.dictionary then writeBlock st1 else st1) rest

/-- The metadata record pickled by `SPIMIIndexer.save_metadata`. -/
structure Metadata where
  N : Nat
  avgdl : ℚ
  total_length : Nat
  doc_lengths : List (String × Nat)

/-- `save_metadata`: `avgdl = total_length / doc_count if doc_count > 0 else 0`. -/
def saveMetadata (st : SPIMIState) : Metadata :=
  { N := st.doc_count
    avgdl := if 0 < st.doc_count then (st.total_length : ℚ) / st.doc_count else 0
    total_length := st.total_length
    doc_lengths := st.doc_lengths }

/-! ### Stats bookkeeping of the indexing loop -/

theorem writeBlock_doc_count (st : SPIMIState) : (writeBlock st).doc_count = st.doc_count := rfl

theorem runIndexing_doc_count (policy : TermDict → Bool) (docs : List (String × List String))
    (st : SPIMIState) :
    (runIndexing policy st docs).doc_count = st.doc_count + docs.length := by
  induction docs generalizing st with
  | nil =>
    simp only [runIndexing]
    split <;> simp [writeBlock]
  | cons doc rest ih =>
    simp only [runIndexing]
    split <;> simp [ih, writeBlock, processDoc] <;> omega

theorem runIndexing_total_length (policy : TermDict → Bool) (docs : List (String × List String))
    (st : SPIMIState) :
    (runIndexing policy st docs).total_length =
      st.total_length + (docs.map fun d => d.2.length).sum := by
  induction docs generalizing st with
  | nil =>
    simp only [runIndexing]
    split <;> simp [writeBlock]
  | cons doc rest ih =>
    simp only [runIndexing]
    split <;> simp [ih, writeBlock, processDoc] <;> omega

theorem runIndexing_doc_lengths (policy : TermDict → Bool) (docs : List (String × List String))
    (st : SPIMIState) :
    (runIndexing policy st docs).doc_lengths =
      docs.foldl (fun dl d => dinsert dl d.1 d.2.length) st.doc_lengths := by
  induction docs generalizing st with
  | nil =>
    simp only [runIndexing]
    split <;> simp [writeBlock]
  | cons doc rest ih =>
    simp only [runIndexing]
    split <;> simp [ih, writeBlock, processDoc]

/-! ## K-way merge (src/indexer/merging.py) -/

/-- Postings dict for one term. -/
abbrev Postings := List (String × Nat)

/-- Heap minimum: index and term of the stream whose `(front term, index)`
pair is smallest, among the streams from index `n` on. `heapq` holds exactly
one `(term, i, postings)` triple per non-exhausted stream, so a heap pop
returns this minimum; on equal terms the smaller stream index wins. -/
def pickMinAux (n : Nat) : List Block → Option (Nat × String)
  | [] => none
  | s :: ss =>
    match s.head?, pickMinAux (n + 1) ss with
    | none, r => r
    | some e, none => some (n, e.1)
    | some e, some (bi, bt) => if strLtb bt e.1 then some (bi, bt) else some (n, e.1)

/-- Index popped next by the k-way merge heap, if any stream is non-empty. -/
def pickMin (streams : List Block) : Option (Nat × String) := pickMinAux 0 streams

/-- Total number of entries left in the streams (the merge consumes one per
iteration; used as fuel so that the loop is structural recursion). -/
def streamsSize (streams : List Block) : Nat := (streams.map List.length).sum

/-- The body of the `while heap:` loop of `merge_blocks`, run `fuel` times at
most. `cur` is `(current_term, current_postings)` (`None` before the first
pop), `out` the sequence of `(term, postings)` pairs already serialised to
the final index file. On a pop: seed the accumulator, or merge via
`current_postings.update(postings)` on an equal term, or flush the
accumulator and start the new term. When the heap empties, the last
accumulator is flushed. -/
def mergeSteps : Nat → List Block → Option (String × Postings) →
    List (String × Postings) → List (String × Postings)
  | 0, _, cur, out => out ++ cur.toList
  | fuel + 1, streams, cur, out =>
    match pickMin streams with
    | none => out ++ cur.toList
    | some (i, _) =>
      match (streams.getD i []).head? with
      | none => out ++ cur.toList
      | some (t, p) =>
        let streams' := streams.set i (streams.getD i []).tail
        match cur with
        | none => mergeSteps fuel streams' (some (t, p)) out
        | some (ct, cp) =>
          if t = ct then mergeSteps fuel streams' (some (ct, dupdate cp p)) out
          else mergeSteps fuel streams' (some (t, p)) (out ++ [(ct, cp)])

/-- The sequence of `(term, postings)` pairs `merge_blocks` writes to the
final index file, in order, given the block streams in heap order. -/
def mergeCore (streams : List Block) : List (String × Postings) :=
  mergeSteps (streamsSize streams) streams none []

/-- File name `f"block_{n}.bin"` given to block `n` by `write_block`. -/
def blockFileName (n : Nat) : String := "block_" ++ Nat.repr n ++ ".bin"

/-- `merge_blocks` reads the block files in `sorted(os.listdir(...))` order:
lexicographic on the file names `block_1.bin, block_2.bin, ...`, which is not
numeric order once ten or more blocks exist. -/
def readOrder (blocks : List Block) : List Block :=
  (((blocks.zip (List.range blocks.length)).map fun p => (p.1, p.2 + 1)).insertionSort
    (fun x y => strLe (blockFileName x.2) (blockFileName y.2))).map Prod.fst

/-- One abstract token of pickled output. `pickle.dumps` of a posting dict is
modelled as a header token carrying the entry count followed by one token per
`(doc_id, tf)` entry, in the dict's insertion order — like the real pickle
stream it is deterministic, self-delimiting and injective, and it determines
the dict including its insertion order. -/
inductive PickleTok where
  | header (n : Nat)
  | entry (doc_id : String) (tf : Nat)
deriving DecidableEq

/-- Model of `pickle.dumps(postings)`. -/
def serPostings (p : Postings) : List PickleTok :=
  PickleTok.header p.length :: p.map fun e => PickleTok.entry e.1 e.2

/-- Model of `pickle.loads` on an exact serialised slice; `none` is the
`UnpicklingError` raised on bytes that are not such a slice. -/
def deserPostings : List PickleTok → Option Postings
  | PickleTok.header n :: rest =>
    let entries := rest.filterMap fun tok =>
      match tok with
      | PickleTok.entry d tf => some (d, tf)
      | PickleTok.header _ => none
    if rest.length = n ∧ entries.length = n then some entries else none
  | _ => none

theorem deserPostings_serPostings (p : Postings) :
    deserPostings (serPostings p) = some p := by
  simp only [serPostings, deserPostings, List.length_map, List.filterMap_map]
  have : (p.filterMap
      (((fun tok =>
          match tok with
          | PickleTok.entry d tf => some (d, tf)
          | PickleTok.header _ => none) :
            PickleTok → Option (String × Nat)) ∘
        fun e => PickleTok.entry e.1 e.2)) = p := by
    induction p with
    | nil => rfl
    | cons e rest ih => simpa [List.filterMap_cons] using ih
  simp [this]

theorem serPostings_length_pos (p : Postings) : 0 < (serPostings p).length := by
  simp [serPostings]

/-- The lexicon built during the output loop of `merge_blocks`:
`lexicon[term] = {'offset': offset, 'length': length}` at each flush, with
`offset` advancing by the length of the pickled postings just written. -/
def lexiconOf (entries : List (String × Postings)) : List (String × (Nat × Nat)) :=
  (entries.foldl
    (fun acc e =>
      (dinsert acc.1 e.1 (acc.2, (serPostings e.2).length), acc.2 + (serPostings e.2).length))
    (([] : List (String × (Nat × Nat))), 0)).1

/-- The final index file: concatenation of the pickled posting dicts in the
order they are flushed. -/
def bytesOf (entries : List (String × Postings)) : List PickleTok :=
  entries.flatMap fun e => serPostings e.2

/-- Result of a full build: final index file entries, lexicon, file bytes and
metadata. When no block exists `merge_blocks` returns before creating any
file; `IndexReader.load_lexicon` then reads the missing lexicon as `{}`,
which coincides with `lexiconOf [] = []` and `bytesOf [] = []`. -/
structure BuildResult where
  entries : List (String × Postings)
  lexicon : List (String × (Nat × Nat))
  fileBytes : List PickleTok
  meta : Metadata

/-- The whole pipeline of `console_app.build_index`:
`run_indexing` (with `save_metadata`) followed by `merge_blocks`. -/
def fullBuild (policy : TermDict → Bool) (docs : List (String × List String)) : BuildResult :=
  let st := runIndexing policy initState docs
  let entries := mergeCore (readOrder st.blocks)
  { entries := entries
    lexicon := lexiconOf entries
    fileBytes := bytesOf entries
    meta := saveMetadata st }

/-! ## Index reader (src/indexer/reader.py) -/

/-- `IndexReader.get_postings`: a term missing from the lexicon yields `{}`
without touching the index file; otherwise seek to `offset`, read `length`
bytes and unpickle (`none` models the exception on a corrupt slice). -/
def getPostings (lexicon : List (String × (Nat × Nat))) (fileBytes : List PickleTok)
    (term : String) : Option Postings :=
  match dlookup lexicon term with
  | none => some []
  | some (off, len) => deserPostings ((fileBytes.drop off).take len)

/-! ## Easy claims: frame of write_block, stats invariants, empty build,
unknown-term reads -/

theorem dinsert_fresh_append {β : Type} (d : List (String × β)) (k : String) (v : β)
    (h : k ∉ d.map Prod.fst) : dinsert d k v = d ++ [(k, v)] := by
  induction d with
  | nil => rfl
  | cons p rest ih =>
    simp only [List.map_cons, List.mem_cons] at h
    push_neg at h
    simp [dinsert, Ne.symm h.1, ih h.2]

theorem foldl_dinsert_lengths (docs : List (String × List String)) :
    ∀ dl : List (String × Nat),
      (docs.map Prod.fst).Nodup → (∀ d ∈ docs, d.1 ∉ dl.map Prod.fst) →
      (docs.foldl (fun acc d => dinsert acc d.1 d.2.length) dl).length
          = dl.length + docs.length ∧
        ((docs.foldl (fun acc d => dinsert acc d.1 d.2.length) dl).map Prod.snd).sum
          = (dl.map Prod.snd).sum + (docs.map fun d => d.2.length).sum := by
  induction docs with
  | nil => intro dl _ _; simp
  | cons doc rest ih =>
    intro dl hnd hdisj
    simp only [List.map_cons, List.nodup_cons] at hnd
    have hfresh : doc.1 ∉ dl.map Prod.fst := hdisj doc (by simp)
    have hstep := dinsert_fresh_append dl doc.1 doc.2.length hfresh
    have hdisj' : ∀ d ∈ rest, d.1 ∉ (dinsert dl doc.1 doc.2.length).map Prod.fst := by
      intro d hd
      rw [hstep]
      simp only [List.map_append, List.mem_append, List.map_cons, List.map_nil]
      rintro (hin | hin)
      · exact hdisj d (by simp [hd]) hin
      · simp only [List.mem_singleton] at hin
        exact hnd.1 (hin ▸ List.mem_map_of_mem Prod.fst hd)
    obtain ⟨h1, h2⟩ := ih (dinsert dl doc.1 doc.2.length) hnd.2 hdisj'
    constructor
    · simp only [List.foldl_cons]
      rw [h1, hstep]
      simp; omega
    · simp only [List.foldl_cons]
      rw [h2, hstep]
      simp; omega

/-- C7 as stated is false: on the stream `[("d", ["x"]), ("d", [])]`, which
repeats a doc_id, `run_indexing` records `N = 2` but `doc_lengths` has a
single entry, and the `doc_lengths` values sum to `0 ≠ total_length = 1`. -/
theorem run_indexing_stats_counterexample :
    ¬((runIndexing (fun _ => false) initState [("d", ["x"]), ("d", [])]).doc_count =
        (runIndexing (fun _ => false) initState [("d", ["x"]), ("d", [])]).doc_lengths.length ∧
      ((runIndexing (fun _ => false) initState
          [("d", ["x"]), ("d", [])]).doc_lengths.map Prod.snd).sum =
        (runIndexing (fun _ => false) initState [("d", ["x"]), ("d", [])]).total_length) := by
  decide

/-- C7 amended: provided the stream's doc_ids are pairwise distinct, after
`run_indexing` the recorded `N` equals the number of `doc_lengths` entries
and the number of documents observed, and the `doc_lengths` values sum to
`total_length`. -/
theorem run_indexing_stats (policy : TermDict → Bool) (docs : List (String × List String))
    (h : (docs.map Prod.fst).Nodup) :
    (runIndexing policy initState docs).doc_count = docs.length ∧
    (runIndexing policy initState docs).doc_lengths.length = docs.length ∧
    ((runIndexing policy initState docs).doc_lengths.map Prod.snd).sum =
      (runIndexing policy initState docs).total_length := by
  obtain ⟨h1, h2⟩ := foldl_dinsert_lengths docs [] h (by simp)
  rw [runIndexing_doc_count, runIndexing_doc_lengths, runIndexing_total_length]
  refine ⟨by simp [initState], ?_, ?_⟩
  · simpa [initState] using h1
  · simpa [initState] using h2

theorem run_indexing_stats_witness :
    ((([("d1", ["apple", "banana", "apple"]), ("d2", ["apple", "cherry"]),
        ("d3", ["banana", "banana", "date"])] :
          List (String × List String)).map Prod.fst).Nodup) ∧
    ((runIndexing (fun _ => false) initState
        [("d1", ["apple", "banana", "apple"]), ("d2", ["apple", "cherry"]),
         ("d3", ["banana", "banana", "date"])]).doc_count = 3 ∧
      (runIndexing (fun _ => false) initState
        [("d1", ["apple", "banana", "apple"]), ("d2", ["apple", "cherry"]),
         ("d3", ["banana", "banana", "date"])]).doc_lengths.length = 3 ∧
      ((runIndexing (fun _ => false) initState
        [("d1", ["apple", "banana", "apple"]), ("d2", ["apple", "cherry"]),
         ("d3", ["banana", "banana", "date"])]).doc_lengths.map Prod.snd).sum =
        (runIndexing (fun _ => false) initState
          [("d1", ["apple", "banana", "apple"]), ("d2", ["apple", "cherry"]),
           ("d3", ["banana", "banana", "date"])]).total_length) :=
  ⟨by decide, run_indexing_stats (fun _ => false) _ (by decide)⟩

/-- C10: `SPIMIIndexer.write_block` empties only the in-memory term
dictionary; the collection statistics `doc_count`, `doc_lengths` and
`total_length` and the previously written block files are unchanged, while
`block_count` increases by exactly 1. -/
theorem write_block_frame (st : SPIMIState) :
    (writeBlock st).dictionary = [] ∧
    (writeBlock st).doc_count = st.doc_count ∧
    (writeBlock st).doc_lengths = st.doc_lengths ∧
    (writeBlock st).total_length = st.total_length ∧
    (writeBlock st).blocks.take st.blocks.length = st.blocks ∧
    (writeBlock st).block_count = st.block_count + 1 := by
  refine ⟨rfl, rfl, rfl, rfl, ?_, rfl⟩
  simp [writeBlock]

/-- C8: a document source that yields nothing is not an error: the build
reaches the end with an empty lexicon (no lexicon entry is ever written; the
reader loads the missing lexicon file as `{}`), an empty final index, and
metadata `N = 0`, `avgdl = 0`. -/
theorem empty_source_build (policy : TermDict → Bool) :
    (fullBuild policy []).lexicon = [] ∧
    (fullBuild policy []).entries = [] ∧
    (fullBuild policy []).fileBytes = [] ∧
    (fullBuild policy []).meta.N = 0 ∧
    (fullBuild policy []).meta.avgdl = 0 :=
  ⟨rfl, rfl, rfl, rfl, rfl⟩

/-- C9: for a term not present in the loaded lexicon, `get_postings` returns
the empty posting list, and the result does not depend on the contents of the
postings file (no seek/read is performed on it); this is not an error. -/
theorem get_postings_unknown_term (lexicon : List (String × (Nat × Nat)))
    (fileBytes otherBytes : List PickleTok) (term : String)
    (h : dlookup lexicon term = none) :
    getPostings lexicon fileBytes term = some [] ∧
    getPostings lexicon fileBytes term = getPostings lexicon otherBytes term := by
  simp [getPostings, h]

theorem get_postings_unknown_term_witness :
    dlookup [("apple", ((0, 3) : Nat × Nat))] "kiwi" = none ∧
    (getPostings [("apple", (0, 3))] [PickleTok.header 7] "kiwi" = some [] ∧
      getPostings [("apple", (0, 3))] [PickleTok.header 7] "kiwi" =
        getPostings [("apple", (0, 3))] [] "kiwi") :=
  ⟨by decide, get_postings_unknown_term _ _ _ _ (by decide)⟩

/-- C2 as stated is false: merging two blocks that both hold `("t", {"d": tf})`
does not sum the tf values — `current_postings.update(postings)` keeps only
the later block's value, here `2` rather than `1 + 2`. -/
theorem merge_collision_counterexample :
    mergeCore (readOrder [[("t", [("d", 1)])], [("t", [("d", 2)])]]) = [("t", [("d", 2)])] ∧
    dlookup ([("d", 2)] : Postings) "d" ≠ some (1 + 2) := by
  decide

/-! ## Correctness of the k-way merge loop -/

/-- Weak term order used along the pop sequence. -/
def wle (a b : String) : Prop := strLtb a b = true ∨ a = b

theorem wle_trans {a b c : String} (h1 : wle a b) (h2 : wle b c) : wle a c := by
  rcases h1 with h1 | rfl
  · rcases h2 with h2 | rfl
    · exact Or.inl (strLtb_trans h1 h2)
    · exact Or.inl h1
  · exact h2

theorem strLtb_cases (a b : String) :
    strLtb a b = true ∨ a = b ∨ strLtb b a = true := by
  cases h1 : strLtb a b with
  | true => exact Or.inl rfl
  | false =>
    cases h2 : strLtb b a with
    | true => exact Or.inr (Or.inr rfl)
    | false => exact Or.inr (Or.inl (strLtb_antisymm h1 h2))

theorem getD_set_ne (l : List Block) (i j : Nat) (a : Block)
    (h : i ≠ j) : (l.set i a).getD j [] = l.getD j [] := by
  induction l generalizing i j with
  | nil => simp
  | cons x xs ih =>
    cases i with
    | zero =>
      cases j with
      | zero => exact absurd rfl h
      | succ j' => simp [List.getD]
    | succ i' =>
      cases j with
      | zero => simp [List.getD]
      | succ j' =>
        simp only [List.set]
        have := ih i' j' (by omega)
        simpa [List.getD] using this

theorem getD_set_self (l : List Block) (i : Nat) (a : Block)
    (h : i < l.length) : (l.set i a).getD i [] = a := by
  induction l generalizing i with
  | nil => simp at h
  | cons x xs ih =>
    cases i with
    | zero => simp [List.getD]
    | succ i' =>
      simp only [List.set]
      have := ih i' (by simpa using h)
      simpa [List.getD] using this

theorem getD_lt_length (l : List Block) (i : Nat) (x : Block)
    (h : l.getD i [] = x) (hx : x ≠ []) : i < l.length := by
  by_contra hge
  rw [List.getD_eq_default] at h
  · exact hx h.symm
  · omega

theorem getD_of_all_nil (ss : List Block) (h : ∀ s ∈ ss, s = []) (j : Nat) :
    ss.getD j [] = [] := by
  induction ss generalizing j with
  | nil => simp
  | cons s rest ih =>
    cases j with
    | zero => simpa [List.getD] using h s (by simp)
    | succ j' => simpa [List.getD] using ih (fun x hx => h x (by simp [hx])) j'

theorem pickMinAux_eq_none_iff (ss : List Block) (n : Nat) :
    pickMinAux n ss = none ↔ ∀ s ∈ ss, s = [] := by
  induction ss generalizing n with
  | nil => simp [pickMinAux]
  | cons s rest ih =>
    cases hs : s.head? with
    | none =>
      have hnil : s = [] := by cases s <;> simp_all
      simp only [pickMinAux, hs]
      constructor
      · intro h x hx
        rcases List.mem_cons.mp hx with rfl | hx
        · exact hnil
        · exact ((ih (n + 1)).mp h) x hx
      · intro h
        exact (ih (n + 1)).mpr fun x hx => h x (List.mem_cons_of_mem _ hx)
    | some e =>
      have hne : s ≠ [] := by cases s <;> simp_all
      simp only [pickMinAux, hs]
      constructor
      · intro h
        cases hr : pickMinAux (n + 1) rest <;> rw [hr] at h
        · simp at h
        · rename_i val
          obtain ⟨bi, bt⟩ := val
          by_cases hlt : strLtb bt e.1 = true <;> simp [hlt] at h
      · intro h
        exact absurd (h s (by simp)) hne

theorem pickMinAux_shift (ss : List Block) (n : Nat) :
    pickMinAux n ss = (pickMinAux 0 ss).map fun e => (e.1 + n, e.2) := by
  induction ss generalizing n with
  | nil => simp [pickMinAux]
  | cons s rest ih =>
    cases hs : s.head? with
    | none =>
      simp only [pickMinAux, hs]
      rw [ih (n + 1), ih 1, Option.map_map]
      congr 1
      funext e
      simp [Function.comp]; omega
    | some e =>
      simp only [pickMinAux, hs]
      rw [ih (n + 1), ih 1]
      cases hr : pickMinAux 0 rest with
      | none => simp
      | some val =>
        obtain ⟨bi, bt⟩ := val
        by_cases hlt : strLtb bt e.1 = true <;> simp [hlt] <;> omega

theorem pickMin_cons (s : Block) (rest : List Block) :
    pickMin (s :: rest) =
      match s.head?, (pickMin rest).map fun e => (e.1 + 1, e.2) with
      | none, r => r
      | some e, none => some (0, e.1)
      | some e, some (bi, bt) => if strLtb bt e.1 then some (bi, bt) else some (0, e.1) := by
  show pickMinAux 0 (s :: rest) = _
  simp only [pickMinAux, pickMinAux_shift rest 1]
  rfl

theorem pickMin_mem (streams : List Block) (i : Nat) (t : String)
    (h : pickMin streams = some (i, t)) :
    ∃ p rest, streams.getD i [] = (t, p) :: rest := by
  induction streams generalizing i t with
  | nil => simp [pickMin, pickMinAux] at h
  | cons s ss ih =>
    rw [pickMin_cons] at h
    cases hs : s.head? with
    | none =>
      rw [hs] at h
      cases hr : pickMin ss with
      | none => rw [hr] at h; simp at h
      | some val =>
        obtain ⟨i0, t0⟩ := val
        rw [hr] at h
        simp only [Option.map, Option.some.injEq, Prod.mk.injEq] at h
        obtain ⟨hi, ht⟩ := h
        subst ht
        obtain ⟨p, rest, hpr⟩ := ih i0 t0 hr
        refine ⟨p, rest, ?_⟩
        subst hi
        simpa [List.getD] using hpr
    | some e =>
      rw [hs] at h
      obtain ⟨t1, p1⟩ := e
      have hse : s = (t1, p1) :: s.tail := by
        cases s with
        | nil => simp at hs
        | cons a as =>
          simp only [List.head?_cons, Option.some.injEq] at hs
          simp [hs]
      cases hr : pickMin ss with
      | none =>
        rw [hr] at h
        simp only [Option.map, Option.some.injEq, Prod.mk.injEq] at h
        obtain ⟨hi, ht⟩ := h
        subst hi
        subst ht
        exact ⟨p1, s.tail, by simpa [List.getD] using hse⟩
      | some val =>
        obtain ⟨bi, bt⟩ := val
        rw [hr] at h
        simp only [Option.map] at h
        by_cases hlt : strLtb bt t1 = true
        · rw [if_pos hlt] at h
          simp only [Option.some.injEq, Prod.mk.injEq] at h
          obtain ⟨hi, ht⟩ := h
          subst ht
          obtain ⟨p, rest, hpr⟩ := ih bi bt hr
          refine ⟨p, rest, ?_⟩
          subst hi
          simpa [List.getD] using hpr
        · rw [if_neg hlt] at h
          simp only [Option.some.injEq, Prod.mk.injEq] at h
          obtain ⟨hi, ht⟩ := h
          subst hi
          subst ht
          exact ⟨p1, s.tail, by simpa [List.getD] using hse⟩

theorem head_fst_of_getD_zero {s : Block} {ss : List Block} {t1 : String} {p1 : Postings}
    {u : String} {q : Postings} {rest' : Block}
    (hs : s.head? = some (t1, p1)) (hj : (s :: ss).getD 0 [] = (u, q) :: rest') : u = t1 := by
  cases s with
  | nil => simp at hs
  | cons a as =>
    simp only [List.head?_cons, Option.some.injEq] at hs
    have hj0 : a :: as = (u, q) :: rest' := by simpa [List.getD] using hj
    simp only [List.cons.injEq] at hj0
    have hfst := congrArg Prod.fst hj0.1
    rw [hs] at hfst
    simpa using hfst.symm

theorem pickMin_min (streams : List Block) (i : Nat) (t : String)
    (h : pickMin streams = some (i, t)) (j : Nat) (u : String) (q : Postings) (rest' : Block)
    (hj : streams.getD j [] = (u, q) :: rest') :
    strLtb t u = true ∨ (t = u ∧ i ≤ j) := by
  induction streams generalizing i t j with
  | nil => simp [pickMin, pickMinAux] at h
  | cons s ss ih =>
    rw [pickMin_cons] at h
    cases hs : s.head? with
    | none =>
      rw [hs] at h
      have hsnil : s = [] := by cases s <;> simp_all
      cases hr : pickMin ss with
      | none => rw [hr] at h; simp at h
      | some val =>
        obtain ⟨i0, t0⟩ := val
        rw [hr] at h
        simp only [Option.map, Option.some.injEq, Prod.mk.injEq] at h
        obtain ⟨hi, ht⟩ := h
        subst ht
        subst hi
        cases j with
        | zero =>
          rw [show (s :: ss).getD 0 [] = s from rfl, hsnil] at hj
          simp at hj
        | succ j' =>
          rcases ih i0 t0 hr j' (by simpa [List.getD] using hj) with h' | ⟨h1, h2⟩
          · exact Or.inl h'
          · exact Or.inr ⟨h1, by omega⟩
    | some e =>
      rw [hs] at h
      obtain ⟨t1, p1⟩ := e
      cases hr : pickMin ss with
      | none =>
        rw [hr] at h
        simp only [Option.map, Option.some.injEq, Prod.mk.injEq] at h
        obtain ⟨hi, ht⟩ := h
        subst hi
        subst ht
        cases j with
        | zero => exact Or.inr ⟨(head_fst_of_getD_zero hs hj).symm, Nat.zero_le _⟩
        | succ j' =>
          have hempty : ∀ x ∈ ss, x = [] := (pickMinAux_eq_none_iff ss 0).mp hr
          have hnil : ss.getD j' [] = [] := getD_of_all_nil ss hempty j'
          rw [show (s :: ss).getD (j' + 1) [] = ss.getD j' [] by simp [List.getD]] at hj
          rw [hnil] at hj
          simp at hj
      | some val =>
        obtain ⟨bi, bt⟩ := val
        rw [hr] at h
        simp only [Option.map] at h
        by_cases hlt : strLtb bt t1 = true
        · rw [if_pos hlt] at h
          simp only [Option.some.injEq, Prod.mk.injEq] at h
          obtain ⟨hi, ht⟩ := h
          subst ht
          cases j with
          | zero => exact Or.inl ((head_fst_of_getD_zero hs hj) ▸ hlt)
          | succ j' =>
            rcases ih bi bt hr j' (by simpa [List.getD] using hj) with h' | ⟨h1, h2⟩
            · exact Or.inl h'
            · exact Or.inr ⟨h1, by omega⟩
        · rw [if_neg hlt] at h
          simp only [Option.some.injEq, Prod.mk.injEq] at h
          obtain ⟨hi, ht⟩ := h
          subst hi
          subst ht
          cases j with
          | zero => exact Or.inr ⟨(head_fst_of_getD_zero hs hj).symm, Nat.zero_le _⟩
          | succ j' =>
            rcases ih bi bt hr j' (by simpa [List.getD] using hj) with h' | ⟨h1, h2⟩
            · rcases strLtb_cases t1 bt with hc | hc | hc
              · exact Or.inl (strLtb_trans hc h')
              · exact Or.inl (hc ▸ h')
              · exact absurd hc (by simp [hlt])
            · rcases strLtb_cases t1 bt with hc | hc | hc
              · exact Or.inl (h1 ▸ hc)
              · exact Or.inr ⟨h1 ▸ hc, by omega⟩
              · exact absurd hc (by simp [hlt])

/-- Entries of the streams tagged with their stream index, starting at `n`. -/
def tagged : Nat → List Block → List (Nat × String × Postings)
  | _, [] => []
  | n, s :: ss => (s.map fun e => (n, e.1, e.2)) ++ tagged (n + 1) ss

/-- Strict order of heap pops: by term, then by stream index. -/
def entryLt (x y : Nat × String × Postings) : Prop :=
  strLtb x.2.1 y.2.1 = true ∨ (x.2.1 = y.2.1 ∧ x.1 < y.1)

/-- The sequence of heap pops `(stream index, term, postings)` performed by
the merge loop, with fuel. -/
def popSeq : Nat → List Block → List (Nat × String × Postings)
  | 0, _ => []
  | fuel + 1, streams =>
    match pickMin streams with
    | none => []
    | some (i, _) =>
      match (streams.getD i []).head? with
      | none => []
      | some (t, p) => (i, t, p) :: popSeq fuel (streams.set i (streams.getD i []).tail)

theorem tagged_nil_of_all_nil (ss : List Block) (h : ∀ s ∈ ss, s = []) (n : Nat) :
    tagged n ss = [] := by
  induction ss generalizing n with
  | nil => rfl
  | cons s rest ih =>
    have hs : s = [] := h s (by simp)
    simp [tagged, hs, ih fun x hx => h x (by simp [hx])]

theorem mem_tagged_elim {ss : List Block} {n : Nat} {e : Nat × String × Postings}
    (h : e ∈ tagged n ss) : ∃ j, e.1 = n + j ∧ (e.2.1, e.2.2) ∈ ss.getD j [] := by
  induction ss generalizing n with
  | nil => simp [tagged] at h
  | cons s rest ih =>
    simp only [tagged, List.mem_append, List.mem_map] at h
    rcases h with ⟨x, hx, rfl⟩ | h
    · exact ⟨0, rfl, by simpa [List.getD] using hx⟩
    · obtain ⟨j, hj1, hj2⟩ := ih h
      exact ⟨j + 1, by omega, by simpa [List.getD] using hj2⟩

theorem tagged_set_perm (streams : List Block) (i : Nat) (t : String) (p : Postings)
    (rest : Block) (h : streams.getD i [] = (t, p) :: rest) (n : Nat) :
    (tagged n streams).Perm ((n + i, t, p) :: tagged n (streams.set i rest)) := by
  induction streams generalizing i n with
  | nil => simp [List.getD] at h
  | cons s ss ih =>
    cases i with
    | zero =>
      have hs : s = (t, p) :: rest := by simpa [List.getD] using h
      subst hs
      simp [tagged]
    | succ i' =>
      have h' : ss.getD i' [] = (t, p) :: rest := by simpa [List.getD] using h
      have hperm := ih i' h' (n + 1)
      have step1 : (tagged n (s :: ss)).Perm
          ((s.map fun e => (n, e.1, e.2)) ++
            ((n + 1 + i', t, p) :: tagged (n + 1) (ss.set i' rest))) :=
        List.Perm.append_left _ hperm
      have step2 : ((s.map fun e => (n, e.1, e.2)) ++
          ((n + 1 + i', t, p) :: tagged (n + 1) (ss.set i' rest))).Perm
          ((n + 1 + i', t, p) ::
            ((s.map fun e => (n, e.1, e.2)) ++ tagged (n + 1) (ss.set i' rest))) :=
        List.perm_middle
      have harith : n + (i' + 1) = n + 1 + i' := by omega
      rw [show (s :: ss).set (i' + 1) rest = s :: ss.set i' rest from rfl, harith]
      exact step1.trans step2

theorem streamsSize_set (streams : List Block) (i : Nat) (t : String) (p : Postings)
    (rest : Block) (h : streams.getD i [] = (t, p) :: rest) :
    streamsSize (streams.set i rest) + 1 = streamsSize streams := by
  induction streams generalizing i with
  | nil => simp [List.getD] at h
  | cons s ss ih =>
    cases i with
    | zero =>
      have hs : s = (t, p) :: rest := by simpa [List.getD] using h
      subst hs
      simp [streamsSize]
      omega
    | succ i' =>
      have h' : ss.getD i' [] = (t, p) :: rest := by simpa [List.getD] using h
      have := ih i' h'
      simp only [List.set, streamsSize, List.map_cons, List.sum_cons] at this ⊢
      omega

theorem all_nil_of_streamsSize_eq_zero (streams : List Block) (h : streamsSize streams = 0) :
    ∀ s ∈ streams, s = [] := by
  intro s hs
  have : s.length = 0 := by
    simp only [streamsSize] at h
    rw [List.sum_eq_zero_iff] at h
    exact h _ (List.mem_map_of_mem _ hs)
  exact List.length_eq_zero.mp this

theorem getD_mem_of_lt (l : List Block) (i : Nat) (h : i < l.length) :
    l.getD i [] ∈ l := by
  induction l generalizing i with
  | nil => simp at h
  | cons s ss ih =>
    cases i with
    | zero => simp [List.getD]
    | succ i' =>
      rw [List.getD_cons_succ]
      exact List.mem_cons_of_mem s (ih i' (by simpa using h))

theorem popSeq_perm (fuel : Nat) (streams : List Block)
    (hfuel : streamsSize streams ≤ fuel) :
    (popSeq fuel streams).Perm (tagged 0 streams) := by
  induction fuel generalizing streams with
  | zero =>
    have : streamsSize streams = 0 := by omega
    rw [tagged_nil_of_all_nil streams (all_nil_of_streamsSize_eq_zero streams this) 0]
    simp [popSeq]
  | succ fuel ih =>
    cases hpm : pickMin streams with
    | none =>
      have hempty := (pickMinAux_eq_none_iff streams 0).mp hpm
      rw [tagged_nil_of_all_nil streams hempty 0]
      simp [popSeq, hpm]
    | some val =>
      obtain ⟨i, t0⟩ := val
      obtain ⟨p, rest, hget⟩ := pickMin_mem streams i t0 hpm
      have hhead : (streams.getD i []).head? = some (t0, p) := by rw [hget]; rfl
      have htail : (streams.getD i []).tail = rest := by rw [hget]; rfl
      have hsize := streamsSize_set streams i t0 p rest hget
      have hstep : popSeq (fuel + 1) streams =
          (i, t0, p) :: popSeq fuel (streams.set i rest) := by
        simp only [popSeq, hpm, hhead, htail]
      rw [hstep]
      have hperm := ih (streams.set i rest) (by omega)
      have htp := (tagged_set_perm streams i t0 p rest hget 0).symm
      simp only [Nat.zero_add] at htp
      exact (List.Perm.cons _ hperm).trans htp

theorem popSeq_sorted (fuel : Nat) (streams : List Block)
    (hs : ∀ s ∈ streams, List.Pairwise (fun a b => strLtb a.1 b.1 = true) s)
    (hfuel : streamsSize streams ≤ fuel) :
    List.Pairwise entryLt (popSeq fuel streams) := by
  induction fuel generalizing streams with
  | zero => simp [popSeq]
  | succ fuel ih =>
    cases hpm : pickMin streams with
    | none => simp [popSeq, hpm]
    | some val =>
      obtain ⟨i, t0⟩ := val
      obtain ⟨p, rest, hget⟩ := pickMin_mem streams i t0 hpm
      have hhead : (streams.getD i []).head? = some (t0, p) := by rw [hget]; rfl
      have htail : (streams.getD i []).tail = rest := by rw [hget]; rfl
      have hilt : i < streams.length :=
        getD_lt_length streams i _ hget (by simp)
      have hsize := streamsSize_set streams i t0 p rest hget
      have hstream_i : ((t0, p) :: rest) ∈ streams := hget ▸ getD_mem_of_lt streams i hilt
      have hsorted_i := hs _ hstream_i
      have hs' : ∀ s ∈ streams.set i rest,
          List.Pairwise (fun a b => strLtb a.1 b.1 = true) s := by
        intro s hmem
        rcases List.mem_or_eq_of_mem_set hmem with hmem' | rfl
        · exact hs s hmem'
        · exact hsorted_i.of_cons
      have hstep : popSeq (fuel + 1) streams =
          (i, t0, p) :: popSeq fuel (streams.set i rest) := by
        simp only [popSeq, hpm, hhead, htail]
      rw [hstep]
      refine List.Pairwise.cons ?_ (ih (streams.set i rest) hs' (by omega))
      intro e he
      have hetag : e ∈ tagged 0 (streams.set i rest) :=
        (popSeq_perm fuel (streams.set i rest) (by omega)).mem_iff.mp he
      obtain ⟨j, hj1, hj2⟩ := mem_tagged_elim hetag
      simp only [Nat.zero_add] at hj1
      by_cases hij : j = i
      · subst hij
        rw [getD_set_self streams j rest hilt] at hj2
        have : strLtb t0 e.2.1 = true := by
          have := (List.pairwise_cons.mp hsorted_i).1 (e.2.1, e.2.2) hj2
          simpa using this
        exact Or.inl this
      · rw [getD_set_ne streams i j rest (Ne.symm hij)] at hj2
        cases hgj : streams.getD j [] with
        | nil => rw [hgj] at hj2; simp at hj2
        | cons hd tl =>
          obtain ⟨u0, q0⟩ := hd
          have hmin := pickMin_min streams i t0 hpm j u0 q0 tl hgj
          have hjlt : j < streams.length := getD_lt_length streams j _ hgj (by simp)
          have hsorted_j := hs _ (hgj ▸ getD_mem_of_lt streams j hjlt)
          rw [hgj] at hj2
          rcases List.mem_cons.mp hj2 with heq | hmem
          · have he1 : e.2.1 = u0 := congrArg Prod.fst heq
            rcases hmin with hlt | ⟨heq2, hle⟩
            · exact Or.inl (he1 ▸ hlt)
            · exact Or.inr ⟨heq2.trans he1.symm, by omega⟩
          · have hu0 : strLtb u0 e.2.1 = true := by
              simpa using (List.pairwise_cons.mp hsorted_j).1 _ hmem
            rcases hmin with hlt | ⟨heq2, hle⟩
            · exact Or.inl (strLtb_trans hlt hu0)
            · exact Or.inl (heq2 ▸ hu0)

/-- Grouping of the pop sequence into per-term runs: the accumulator form of
the merge loop body, after the pops have been made explicit. -/
def runsAcc : (String × Postings) → List (String × Postings) → List (String × Postings)
  | c, [] => [c]
  | (ct, cp), (t, p) :: rest =>
    if t = ct then runsAcc (ct, dupdate cp p) rest else (ct, cp) :: runsAcc (t, p) rest

/-- Output of the merge loop as a function of the raw pop sequence. -/
def groupRuns : List (String × Postings) → List (String × Postings)
  | [] => []
  | e :: rest => runsAcc e rest

/-- Output of the merge loop given the current accumulator. -/
def mergeOut : Option (String × Postings) → List (String × Postings) → List (String × Postings)
  | none, pops => groupRuns pops
  | some c, pops => runsAcc c pops

theorem mergeSteps_eq (fuel : Nat) :
    ∀ (streams : List Block) (cur : Option (String × Postings))
      (out : List (String × Postings)),
      mergeSteps fuel streams cur out = out ++ mergeOut cur ((popSeq fuel streams).map Prod.snd) := by
  induction fuel with
  | zero =>
    intro streams cur out
    cases cur <;> simp [mergeSteps, popSeq, mergeOut, groupRuns, runsAcc]
  | succ fuel ih =>
    intro streams cur out
    cases hpm : pickMin streams with
    | none =>
      cases cur <;> simp [mergeSteps, popSeq, hpm, mergeOut, groupRuns, runsAcc]
    | some val =>
      obtain ⟨i, t0⟩ := val
      cases hgd : streams.getD i [] with
      | nil =>
        have hgd' := hgd
        rw [List.getD_eq_getElem?_getD] at hgd'
        cases cur <;>
          simp [mergeSteps, popSeq, hpm, hgd, hgd', mergeOut, groupRuns, runsAcc]
      | cons e tail =>
        obtain ⟨t, p⟩ := e
        have hgd' := hgd
        rw [List.getD_eq_getElem?_getD] at hgd'
        cases cur with
        | none =>
          simp only [mergeSteps, popSeq, hpm, hgd, hgd', List.head?_cons, List.tail_cons, ih,
            mergeOut, groupRuns, List.map_cons]
        | some c =>
          obtain ⟨ct, cp⟩ := c
          by_cases hteq : t = ct
          · subst hteq
            simp only [mergeSteps, popSeq, hpm, hgd, hgd', List.head?_cons, List.tail_cons,
              if_pos rfl, ih, mergeOut, List.map_cons]
            simp [runsAcc]
          · simp only [mergeSteps, popSeq, hpm, hgd', List.head?_cons, List.tail_cons,
              if_neg hteq, ih, mergeOut, List.map_cons]
            simp [runsAcc, hteq, hgd, hgd']

theorem runsAcc_ne_nil (pops : List (String × Postings)) :
    ∀ c, runsAcc c pops ≠ [] := by
  induction pops with
  | nil => intro c; simp [runsAcc]
  | cons e rest ih =>
    intro c
    obtain ⟨ct, cp⟩ := c
    obtain ⟨t, p⟩ := e
    by_cases h : t = ct
    · simpa [runsAcc, h] using ih (ct, dupdate cp p)
    · simp [runsAcc, h]

theorem runsAcc_mem_fst (pops : List (String × Postings)) :
    ∀ ct cp, ∀ u ∈ (runsAcc (ct, cp) pops).map Prod.fst,
      u = ct ∨ u ∈ pops.map Prod.fst := by
  induction pops with
  | nil => intro ct cp u hu; simp [runsAcc] at hu; exact Or.inl hu
  | cons e rest ih =>
    intro ct cp u hu
    obtain ⟨t, p⟩ := e
    by_cases h : t = ct
    · subst h
      rcases ih t (dupdate cp p) u (by simpa [runsAcc] using hu) with h' | h'
      · exact Or.inl h'
      · exact Or.inr (by simp [h'])
    · simp only [runsAcc, if_neg h, List.map_cons, List.mem_cons] at hu
      rcases hu with rfl | hu
      · exact Or.inl rfl
      · rcases ih t p u hu with h' | h'
        · exact Or.inr (by simp [h'])
        · exact Or.inr (by simp [h'])

theorem runsAcc_sorted (pops : List (String × Postings)) :
    ∀ ct cp, (∀ e ∈ pops, wle ct e.1) →
      List.Pairwise (fun a b => wle a b) (pops.map Prod.fst) →
      List.Pairwise (fun a b => strLtb a b = true) ((runsAcc (ct, cp) pops).map Prod.fst) := by
  induction pops with
  | nil => intro ct cp _ _; simp [runsAcc]
  | cons e rest ih =>
    intro ct cp hle hsorted
    obtain ⟨t, p⟩ := e
    simp only [List.map_cons, List.pairwise_cons] at hsorted
    by_cases h : t = ct
    · subst h
      rw [show runsAcc (t, cp) ((t, p) :: rest) = runsAcc (t, dupdate cp p) rest from by
        simp [runsAcc]]
      refine ih t (dupdate cp p) ?_ hsorted.2
      intro e he
      exact hle e (List.mem_cons_of_mem _ he)
    · have hct : strLtb ct t = true := by
        rcases hle (t, p) (by simp) with h' | h'
        · exact h'
        · exact absurd h'.symm h
      simp only [runsAcc, if_neg h, List.map_cons]
      refine List.Pairwise.cons ?_ ?_
      · intro u hu
        rcases runsAcc_mem_fst rest t p u hu with rfl | hu'
        · exact hct
        · obtain ⟨e', he', rfl⟩ := List.mem_map.mp hu'
          rcases hsorted.1 e'.1 (List.mem_map_of_mem _ he') with h' | h'
          · exact strLtb_trans hct h'
          · exact h' ▸ hct
      · exact ih t p (fun e he => hsorted.1 e.1 (List.mem_map_of_mem _ he)) hsorted.2

/-- The postings of the pops for one fixed term, in pop order. -/
def collectPops (t : String) (pops : List (String × Postings)) : List Postings :=
  pops.filterMap fun e => if e.1 = t then some e.2 else none

theorem collectPops_eq_nil (t : String) (pops : List (String × Postings))
    (h : ∀ e ∈ pops, e.1 ≠ t) : collectPops t pops = [] := by
  induction pops with
  | nil => rfl
  | cons e rest ih =>
    simp only [collectPops, List.filterMap_cons, if_neg (h e (by simp))]
    exact ih fun x hx => h x (by simp [hx])

theorem runsAcc_lookup (pops : List (String × Postings)) :
    ∀ ct cp t, (∀ e ∈ pops, wle ct e.1) →
      List.Pairwise (fun a b => wle a b) (pops.map Prod.fst) →
      dlookup (runsAcc (ct, cp) pops) t =
        if ct = t then some (List.foldl dupdate cp (collectPops t pops))
        else
          match collectPops t pops with
          | [] => none
          | p :: ps => some (List.foldl dupdate p ps) := by
  induction pops with
  | nil =>
    intro ct cp t _ _
    by_cases hct : ct = t <;> simp [runsAcc, dlookup, collectPops, hct]
  | cons e rest ih =>
    intro ct cp t hle hsorted
    obtain ⟨t', p'⟩ := e
    simp only [List.map_cons, List.pairwise_cons] at hsorted
    by_cases ht' : t' = ct
    · subst ht'
      rw [show runsAcc (t', cp) ((t', p') :: rest) = runsAcc (t', dupdate cp p') rest from by
        simp [runsAcc]]
      rw [ih t' (dupdate cp p') t (fun e he => hle e (List.mem_cons_of_mem _ he)) hsorted.2]
      by_cases hct : t' = t
      · subst hct
        simp [collectPops, List.filterMap_cons]
      · simp [collectPops, List.filterMap_cons, hct]
    · have hctt' : strLtb ct t' = true := by
        rcases hle (t', p') (by simp) with h' | h'
        · exact h'
        · exact absurd h'.symm ht'
      rw [show runsAcc (ct, cp) ((t', p') :: rest) = (ct, cp) :: runsAcc (t', p') rest from by
        simp [runsAcc, ht']]
      by_cases hct : ct = t
      · subst hct
        have hrest : collectPops ct ((t', p') :: rest) = [] := by
          refine collectPops_eq_nil ct _ ?_
          intro e he
          rcases List.mem_cons.mp he with rfl | he'
          · exact fun hh => ht' hh
          · intro hh
            rcases hsorted.1 e.1 (List.mem_map_of_mem _ he') with h' | h'
            · rw [hh] at h'
              exact absurd (strLtb_trans hctt' h') (by simp [strLtb_irrefl])
            · exact ht' (h'.trans hh)
        simp [dlookup, hrest]
      · rw [show dlookup ((ct, cp) :: runsAcc (t', p') rest) t =
            dlookup (runsAcc (t', p') rest) t from by simp [dlookup, hct]]
        rw [ih t' p' t (fun e he => hsorted.1 e.1 (List.mem_map_of_mem _ he)) hsorted.2]
        by_cases ht's : t' = t
        · subst ht's
          simp [collectPops, List.filterMap_cons, hct]
        · simp [collectPops, List.filterMap_cons, hct, ht's]

theorem tagged_idx_ge (ss : List Block) (n : Nat) : ∀ e ∈ tagged n ss, n ≤ e.1 := by
  induction ss generalizing n with
  | nil => simp [tagged]
  | cons s rest ih =>
    intro e he
    simp only [tagged, List.mem_append, List.mem_map] at he
    rcases he with ⟨x, _, rfl⟩ | he
    · exact le_refl n
    · exact le_trans (by omega) (ih (n + 1) e he)

theorem filter_map_snd_eq_dlookup_toList (s : Block) (t : String)
    (hs : List.Pairwise (fun a b => strLtb a.1 b.1 = true) s) :
    ((s.filter fun e => decide (e.1 = t)).map Prod.snd) = (dlookup s t).toList := by
  induction s with
  | nil => simp [dlookup]
  | cons e rest ih =>
    obtain ⟨k, v⟩ := e
    simp only [List.pairwise_cons] at hs
    by_cases hk : k = t
    · subst hk
      have hrest : rest.filter (fun e => decide (e.1 = k)) = [] := by
        rw [List.filter_eq_nil_iff]
        intro x hx
        simp only [decide_eq_true_eq]
        intro hxk
        have := hs.1 x hx
        rw [hxk] at this
        exact absurd this (by simp [strLtb_irrefl])
      simp [List.filter_cons, dlookup, hrest]
    · simp only [List.filter_cons, decide_eq_true_eq, hk, if_false]
      rw [ih hs.2]
      simp [dlookup, hk]

theorem tagged_filter_map_snd (ss : List Block) (t : String)
    (hs : ∀ s ∈ ss, List.Pairwise (fun a b => strLtb a.1 b.1 = true) s) :
    ∀ n, (((tagged n ss).filter fun e => decide (e.2.1 = t)).map fun e => e.2.2)
      = ss.filterMap fun s => dlookup s t := by
  induction ss with
  | nil => intro n; simp [tagged]
  | cons s rest ih =>
    intro n
    have hshead := hs s (by simp)
    have htail := ih fun x hx => hs x (by simp [hx])
    simp only [tagged, List.filter_append, List.map_append]
    rw [List.filter_map]
    have hcomp : ((fun e : Nat × String × Postings => decide (e.2.1 = t)) ∘
        (fun e : String × Postings => ((n, e.1, e.2) : Nat × String × Postings)))
        = fun e : String × Postings => decide (e.1 = t) := rfl
    rw [hcomp, List.map_map]
    have hcomp2 : ((fun e : Nat × String × Postings => e.2.2) ∘
        (fun e : String × Postings => ((n, e.1, e.2) : Nat × String × Postings)))
        = Prod.snd := rfl
    rw [hcomp2, filter_map_snd_eq_dlookup_toList s t hshead, htail (n + 1)]
    rw [List.filterMap_cons]
    cases dlookup s t <;> simp

theorem length_le_one_pairwise {α : Type} {r : α → α → Prop} {l : List α}
    (h : l.length ≤ 1) : List.Pairwise r l := by
  cases l with
  | nil => exact List.Pairwise.nil
  | cons a l' =>
    cases l' with
    | nil => simp
    | cons b l'' => simp at h

theorem tagged_filter_pairwise (ss : List Block) (t : String)
    (hs : ∀ s ∈ ss, List.Pairwise (fun a b => strLtb a.1 b.1 = true) s) :
    ∀ n, List.Pairwise (fun a b => a.1 < b.1)
      ((tagged n ss).filter fun e => decide (e.2.1 = t)) := by
  induction ss with
  | nil => intro n; simp [tagged]
  | cons s rest ih =>
    intro n
    simp only [tagged, List.filter_append]
    rw [List.pairwise_append]
    refine ⟨?_, ih (fun x hx => hs x (by simp [hx])) (n + 1), ?_⟩
    · apply length_le_one_pairwise
      rw [List.filter_map]
      have hcomp : ((fun e : Nat × String × Postings => decide (e.2.1 = t)) ∘
          (fun e : String × Postings => ((n, e.1, e.2) : Nat × String × Postings)))
          = fun e : String × Postings => decide (e.1 = t) := rfl
      rw [hcomp, List.length_map]
      have hlen := congrArg List.length (filter_map_snd_eq_dlookup_toList s t (hs s (by simp)))
      rw [List.length_map] at hlen
      rw [hlen]
      cases dlookup s t <;> simp
    · intro x hx y hy
      have hx1 : x.1 = n := by
        have hmem := List.mem_of_mem_filter hx
        obtain ⟨e, _, rfl⟩ := List.mem_map.mp hmem
        rfl
      have hy1 : n + 1 ≤ y.1 := tagged_idx_ge rest (n + 1) y (List.mem_of_mem_filter hy)
      omega

theorem collect_popSeq_eq (streams : List Block) (t : String)
    (hs : ∀ s ∈ streams, List.Pairwise (fun a b => strLtb a.1 b.1 = true) s) :
    collectPops t ((popSeq (streamsSize streams) streams).map Prod.snd)
      = streams.filterMap fun s => dlookup s t := by
  have hperm : (popSeq (streamsSize streams) streams).Perm (tagged 0 streams) :=
    popSeq_perm _ _ (le_refl _)
  have hsorted : List.Pairwise entryLt (popSeq (streamsSize streams) streams) :=
    popSeq_sorted _ _ hs (le_refl _)
  have hA : collectPops t ((popSeq (streamsSize streams) streams).map Prod.snd)
      = (((popSeq (streamsSize streams) streams).filter fun e => decide (e.2.1 = t)).map
          fun e => e.2.2) := by
    simp only [collectPops, List.filterMap_map]
    induction popSeq (streamsSize streams) streams with
    | nil => rfl
    | cons e rest ihp =>
      by_cases he : e.2.1 = t
      · simp [List.filterMap_cons, List.filter_cons, he, ihp]
      · simp [List.filterMap_cons, List.filter_cons, he, ihp]
  rw [hA, ← tagged_filter_map_snd streams t hs 0]
  congr 1
  refine @List.Perm.eq_of_sorted _ (fun a b => a.1 < b.1) _ _ ?_ ?_ ?_ (hperm.filter _)
  · intro a b _ _ h1 h2
    omega
  · refine List.Pairwise.imp_of_mem ?_ (hsorted.sublist (List.filter_sublist _))
    intro a b ha hb hab
    have ha' : a.2.1 = t := by simpa using (List.mem_filter.mp ha).2
    have hb' : b.2.1 = t := by simpa using (List.mem_filter.mp hb).2
    rcases hab with h' | h'
    · rw [ha', hb'] at h'
      exact absurd h' (by simp [strLtb_irrefl])
    · exact h'.2
  · exact tagged_filter_pairwise streams t hs 0

theorem mergeCore_lookup (streams : List Block)
    (hs : ∀ s ∈ streams, List.Pairwise (fun a b => strLtb a.1 b.1 = true) s) (t : String) :
    dlookup (mergeCore streams) t =
      match streams.filterMap (fun s => dlookup s t) with
      | [] => none
      | p :: ps => some (List.foldl dupdate p ps) := by
  have hcore : mergeCore streams =
      mergeOut none ((popSeq (streamsSize streams) streams).map Prod.snd) := by
    have := mergeSteps_eq (streamsSize streams) streams none []
    simpa [mergeCore] using this
  have hcollect := collect_popSeq_eq streams t hs
  have hsorted : List.Pairwise entryLt (popSeq (streamsSize streams) streams) :=
    popSeq_sorted _ _ hs (le_refl _)
  have hwle : List.Pairwise (fun a b : String × Postings => wle a.1 b.1)
      ((popSeq (streamsSize streams) streams).map Prod.snd) := by
    rw [List.pairwise_map]
    refine List.Pairwise.imp ?_ hsorted
    intro a b hab
    rcases hab with h' | h'
    · exact Or.inl h'
    · exact Or.inr h'.1
  rw [hcore]
  cases hpops : (popSeq (streamsSize streams) streams).map Prod.snd with
  | nil =>
    rw [hpops] at hcollect
    simp only [collectPops, List.filterMap_nil] at hcollect
    rw [← hcollect]
    simp [mergeOut, groupRuns, dlookup]
  | cons e rest =>
    rw [hpops] at hcollect hwle
    simp only [List.pairwise_cons] at hwle
    have hlook := runsAcc_lookup rest e.1 e.2 t
      (fun x hx => hwle.1 x hx)
      (by rw [List.pairwise_map]; exact hwle.2)
    rw [show mergeOut none (e :: rest) = runsAcc (e.1, e.2) rest from by
      simp [mergeOut, groupRuns]]
    rw [hlook, ← hcollect]
    by_cases he : e.1 = t
    · subst he
      simp [collectPops, List.filterMap_cons]
    · rw [if_neg he, show collectPops t (e :: rest) = collectPops t rest from by
        simp [collectPops, List.filterMap_cons, he]]
      cases collectPops t rest <;> rfl

theorem mergeCore_sorted (streams : List Block)
    (hs : ∀ s ∈ streams, List.Pairwise (fun a b => strLtb a.1 b.1 = true) s) :
    List.Pairwise (fun a b => strLtb a b = true) ((mergeCore streams).map Prod.fst) := by
  have hcore : mergeCore streams =
      mergeOut none ((popSeq (streamsSize streams) streams).map Prod.snd) := by
    have := mergeSteps_eq (streamsSize streams) streams none []
    simpa [mergeCore] using this
  have hsorted : List.Pairwise entryLt (popSeq (streamsSize streams) streams) :=
    popSeq_sorted _ _ hs (le_refl _)
  have hwle : List.Pairwise (fun a b : String × Postings => wle a.1 b.1)
      ((popSeq (streamsSize streams) streams).map Prod.snd) := by
    rw [List.pairwise_map]
    refine List.Pairwise.imp ?_ hsorted
    intro a b hab
    rcases hab with h' | h'
    · exact Or.inl h'
    · exact Or.inr h'.1
  rw [hcore]
  cases hpops : (popSeq (streamsSize streams) streams).map Prod.snd with
  | nil => simp [mergeOut, groupRuns]
  | cons e rest =>
    rw [hpops] at hwle
    simp only [List.pairwise_cons] at hwle
    rw [show mergeOut none (e :: rest) = runsAcc (e.1, e.2) rest from by
      simp [mergeOut, groupRuns]]
    exact runsAcc_sorted rest e.1 e.2 (fun x hx => hwle.1 x hx)
      (by rw [List.pairwise_map]; exact hwle.2)

/-! ## Semantics of the in-memory dictionary -/

/-- Nested lookup `dictionary[t][did]`. -/
def lookup2 (dict : TermDict) (t did : String) : Option Nat :=
  (dlookup dict t).bind fun p => dlookup p did

theorem dlookup_mem {β : Type} (d : List (String × β)) (k : String) (v : β)
    (h : dlookup d k = some v) : (k, v) ∈ d := by
  induction d with
  | nil => simp [dlookup] at h
  | cons e rest ih =>
    obtain ⟨k0, v0⟩ := e
    by_cases hk : k0 = k
    · subst hk
      have hv : v0 = v := by simpa [dlookup] using h
      simp [hv]
    · have h' : dlookup rest k = some v := by simpa [dlookup, hk] using h
      exact List.mem_cons_of_mem _ (ih h')

theorem dlookup_of_mem_nodup {β : Type} (d : List (String × β)) (k : String) (v : β)
    (hnd : (d.map Prod.fst).Nodup) (h : (k, v) ∈ d) : dlookup d k = some v := by
  induction d with
  | nil => simp at h
  | cons e rest ih =>
    obtain ⟨k0, v0⟩ := e
    simp only [List.map_cons, List.nodup_cons] at hnd
    rcases List.mem_cons.mp h with heq | hmem
    · obtain ⟨h1, h2⟩ := Prod.mk.injEq .. ▸ heq
      simp [dlookup, h1.symm, h2]
    · have hne : k0 ≠ k := by
        intro hk
        subst hk
        exact hnd.1 (List.mem_map_of_mem Prod.fst hmem)
      simp [dlookup, hne, ih hnd.2 hmem]

theorem mem_dinsert {β : Type} (d : List (String × β)) (k : String) (v : β) :
    ∀ e ∈ dinsert d k v, e = (k, v) ∨ e ∈ d := by
  induction d with
  | nil => intro e he; simp [dinsert] at he; simp [he]
  | cons p rest ih =>
    intro e he
    obtain ⟨k0, v0⟩ := p
    by_cases hk : k0 = k
    · subst hk
      have he' : e ∈ (k0, v) :: rest := by simpa [dinsert] using he
      rcases List.mem_cons.mp he' with rfl | he''
      · exact Or.inl rfl
      · exact Or.inr (List.mem_cons_of_mem _ he'')
    · have he' : e ∈ (k0, v0) :: dinsert rest k v := by simpa [dinsert, hk] using he
      rcases List.mem_cons.mp he' with rfl | he''
      · exact Or.inr (by simp)
      · rcases ih e he'' with h' | h'
        · exact Or.inl h'
        · exact Or.inr (List.mem_cons_of_mem _ h')

theorem dinsert_ne_nil {β : Type} (d : List (String × β)) (k : String) (v : β) :
    dinsert d k v ≠ [] := by
  cases d with
  | nil => simp [dinsert]
  | cons p rest =>
    obtain ⟨k0, v0⟩ := p
    by_cases hk : k0 = k <;> simp [dinsert, hk]

/-- Well-formedness of every dict this pipeline builds: unique term keys,
and each posting dict non-empty with unique doc_id keys. -/
def WFDict (dict : TermDict) : Prop :=
  (dict.map Prod.fst).Nodup ∧ ∀ e ∈ dict, ((e.2.map Prod.fst).Nodup ∧ e.2 ≠ [])

theorem WFDict_nil : WFDict [] := ⟨List.nodup_nil, by simp⟩

theorem addToken_WF (dict : TermDict) (did t : String) (h : WFDict dict) :
    WFDict (addToken dict did t) := by
  obtain ⟨h1, h2⟩ := h
  refine ⟨nodup_map_fst_dinsert _ _ h1, ?_⟩
  intro e he
  rcases mem_dinsert _ _ _ e he with rfl | hmem
  · constructor
    · apply nodup_map_fst_dinsert
      cases hq : dlookup dict t with
      | none => simp [hq]
      | some q =>
        have := h2 (t, q) (dlookup_mem dict t q hq)
        simpa [hq] using this.1
    · exact dinsert_ne_nil _ _ _
  · exact h2 e hmem

theorem procTokens_WF (tokens : List String) :
    ∀ dict did, WFDict dict → WFDict (procTokens dict did tokens) := by
  induction tokens with
  | nil => intro dict did h; exact h
  | cons tok rest ih =>
    intro dict did h
    exact ih (addToken dict did tok) did (addToken_WF dict did tok h)

theorem addToken_lookup2 (dict : TermDict) (did t t' did' : String) :
    lookup2 (addToken dict did t) t' did' =
      if t' = t ∧ did' = did then some ((lookup2 dict t did).getD 0 + 1)
      else lookup2 dict t' did' := by
  unfold addToken lookup2
  by_cases ht : t' = t
  · subst ht
    rw [dlookup_dinsert_self]
    by_cases hd : did' = did
    · subst hd
      rw [Option.some_bind]
      rw [dlookup_dinsert_self]
      cases hq : dlookup dict t' with
      | none => simp [hq, dlookup]
      | some q => simp [hq]
    · rw [Option.some_bind]
      rw [dlookup_dinsert_ne _ _ (fun hh => hd hh.symm)]
      cases hq : dlookup dict t' with
      | none => simp [hq, hd, dlookup]
      | some q => simp [hq, hd]
  · rw [dlookup_dinsert_ne _ _ (fun hh => ht hh.symm)]
    simp [ht]

theorem procTokens_lookup2 (tokens : List String) :
    ∀ (dict : TermDict) (did t did' : String),
      lookup2 (procTokens dict did tokens) t did' =
        if did' = did then
          (if 0 < tokens.count t then
            some ((lookup2 dict t did).getD 0 + tokens.count t)
          else lookup2 dict t did)
        else lookup2 dict t did' := by
  induction tokens with
  | nil =>
    intro dict did t did'
    by_cases hd : did' = did
    · subst hd; simp [procTokens]
    · simp [procTokens, hd]
  | cons tok rest ih =>
    intro dict did t did'
    have hstep : procTokens dict did (tok :: rest) = procTokens (addToken dict did tok) did rest :=
      rfl
    rw [hstep, ih]
    by_cases hd : did' = did
    · subst hd
      rw [if_pos rfl, if_pos rfl]
      by_cases ht : tok = t
      · subst ht
        have hcount : (tok :: rest).count tok = rest.count tok + 1 := by
          simp [List.count_cons]
        have hadd : lookup2 (addToken dict did' tok) tok did' =
            some ((lookup2 dict tok did').getD 0 + 1) := by
          rw [addToken_lookup2]; simp
        rw [hcount, hadd, if_pos (by omega : 0 < rest.count tok + 1)]
        by_cases hc : 0 < rest.count tok
        · rw [if_pos hc]
          simp only [Option.getD_some, Option.some.injEq]
          omega
        · rw [if_neg hc]
          have hc0 : rest.count tok = 0 := by omega
          rw [hc0]
      · have hcount : (tok :: rest).count t = rest.count t := by
          simp [List.count_cons, Ne.symm ht]
        have hadd : lookup2 (addToken dict did' tok) t did' = lookup2 dict t did' := by
          rw [addToken_lookup2]
          exact if_neg fun hh => ht hh.1.symm
        rw [hcount, hadd]
    · rw [if_neg hd, if_neg hd]
      have hadd : lookup2 (addToken dict did tok) t did' = lookup2 dict t did' := by
        rw [addToken_lookup2]
        simp [hd]
      rw [hadd]

/-! ## Blocks produced by the indexing loop -/

theorem dlookup_map_graph (l : List String) (f : String → Postings) (t : String) :
    dlookup (l.map fun x => (x, f x)) t = if t ∈ l then some (f t) else none := by
  induction l with
  | nil => simp [dlookup]
  | cons x rest ih =>
    by_cases hx : x = t
    · subst hx
      simp [dlookup]
    · simp [dlookup, hx, ih, Ne.symm hx]

theorem sortedTerms_mem (dict : TermDict) (t : String) :
    t ∈ sortedTerms dict ↔ t ∈ dict.map Prod.fst :=
  (List.perm_insertionSort strLe (dict.map Prod.fst)).mem_iff

theorem blockData_lookup (dict : TermDict) (t : String) :
    dlookup (blockData dict) t = dlookup dict t := by
  unfold blockData
  rw [dlookup_map_graph]
  by_cases hmem : t ∈ sortedTerms dict
  · rw [if_pos hmem]
    have : (dlookup dict t).isSome := by
      rw [dlookup_isSome_iff_mem]
      exact (sortedTerms_mem dict t).mp hmem
    cases hq : dlookup dict t with
    | none => rw [hq] at this; simp at this
    | some q => simp
  · rw [if_neg hmem]
    have : dlookup dict t = none := by
      rw [dlookup_eq_none_iff_not_mem]
      exact fun hc => hmem ((sortedTerms_mem dict t).mpr hc)
    rw [this]

theorem blockData_sorted (dict : TermDict) (h : (dict.map Prod.fst).Nodup) :
    List.Pairwise (fun a b => strLtb a.1 b.1 = true) (blockData dict) := by
  unfold blockData
  rw [List.pairwise_map]
  have hnd : (sortedTerms dict).Nodup :=
    ((List.perm_insertionSort strLe (dict.map Prod.fst)).nodup_iff).mpr h
  have hsorted : List.Pairwise strLe (sortedTerms dict) :=
    List.sorted_insertionSort strLe (dict.map Prod.fst)
  have hcomb := hsorted.and hnd
  refine hcomb.imp ?_
  intro a b hab
  obtain ⟨hle, hne⟩ := hab
  rcases strLtb_cases a b with hc | hc | hc
  · exact hc
  · exact absurd hc hne
  · exact absurd hc (by simpa [strLe, strLeb] using hle)

theorem blockData_WF (dict : TermDict) (h : WFDict dict) :
    ∀ e ∈ blockData dict, (e.2.map Prod.fst).Nodup ∧ e.2 ≠ [] := by
  intro e he
  unfold blockData at he
  obtain ⟨t, ht, rfl⟩ := List.mem_map.mp he
  have hmem : t ∈ dict.map Prod.fst := (sortedTerms_mem dict t).mp ht
  have hsome : (dlookup dict t).isSome := (dlookup_isSome_iff_mem dict t).mpr hmem
  cases hq : dlookup dict t with
  | none => rw [hq] at hsome; simp at hsome
  | some q =>
    have := h.2 (t, q) (dlookup_mem dict t q hq)
    simpa [hq] using this

/-- The block files produced while consuming `docs` starting from an
in-memory dictionary `dict`: the recursion of `run_indexing` projected onto
its block output. -/
def blocksFrom (policy : TermDict → Bool) : TermDict → List (String × List String) → List Block
  | dict, [] => if dict.isEmpty then [] else [blockData dict]
  | dict, doc :: rest =>
    if policy (procTokens dict doc.1 doc.2) then
      blockData (procTokens dict doc.1 doc.2) :: blocksFrom policy [] rest
    else blocksFrom policy (procTokens dict doc.1 doc.2) rest

theorem runIndexing_blocks (policy : TermDict → Bool) (docs : List (String × List String)) :
    ∀ st, (runIndexing policy st docs).blocks = st.blocks ++ blocksFrom policy st.dictionary docs := by
  induction docs with
  | nil =>
    intro st
    simp only [runIndexing, blocksFrom]
    by_cases h : st.dictionary.isEmpty
    · rw [if_pos h, if_pos h]; simp
    · rw [if_neg h, if_neg h]; simp [writeBlock]
  | cons doc rest ih =>
    intro st
    simp only [runIndexing, blocksFrom]
    by_cases hpol : policy (procTokens st.dictionary doc.1 doc.2)
    · rw [show policy (processDoc st doc).dictionary = true from hpol, if_pos hpol]
      rw [if_pos rfl, ih]
      simp [writeBlock, processDoc]
    · rw [show policy (processDoc st doc).dictionary = false from by simpa using hpol,
        if_neg hpol]
      rw [if_neg (by simp), ih]
      simp [processDoc]

theorem blocksFrom_props (policy : TermDict → Bool) (docs : List (String × List String)) :
    ∀ dict, WFDict dict →
      ∀ b ∈ blocksFrom policy dict docs,
        List.Pairwise (fun a b => strLtb a.1 b.1 = true) b ∧
          ∀ e ∈ b, (e.2.map Prod.fst).Nodup ∧ e.2 ≠ [] := by
  induction docs with
  | nil =>
    intro dict hwf b hb
    simp only [blocksFrom] at hb
    by_cases h : dict.isEmpty
    · rw [if_pos h] at hb; simp at hb
    · rw [if_neg h] at hb
      simp only [List.mem_singleton] at hb
      subst hb
      exact ⟨blockData_sorted dict hwf.1, blockData_WF dict hwf⟩
  | cons doc rest ih =>
    intro dict hwf b hb
    have hwf' : WFDict (procTokens dict doc.1 doc.2) := procTokens_WF doc.2 dict doc.1 hwf
    simp only [blocksFrom] at hb
    by_cases hpol : policy (procTokens dict doc.1 doc.2)
    · rw [if_pos hpol] at hb
      rcases List.mem_cons.mp hb with rfl | hb'
      · exact ⟨blockData_sorted _ hwf'.1, blockData_WF _ hwf'⟩
      · exact ih [] WFDict_nil b hb'
    · rw [if_neg hpol] at hb
      exact ih _ hwf' b hb

/-- The tf the stream assigns to `(t, did)`: the number of occurrences of `t`
in the tokens of the (first) document named `did`, when positive. -/
def docTf (docs : List (String × List String)) (t did : String) : Option Nat :=
  match dlookup docs did with
  | none => none
  | some toks => if 0 < toks.count t then some (toks.count t) else none

theorem filterMap_cons_toList {α β : Type} (f : α → Option β) (a : α) (l : List α) :
    (a :: l).filterMap f = (f a).toList ++ l.filterMap f := by
  cases h : f a <;> simp [List.filterMap_cons, h]

theorem blocksFrom_vals (policy : TermDict → Bool) (docs : List (String × List String)) :
    ∀ (dict : TermDict) (t did : String), WFDict dict →
      (docs.map Prod.fst).Nodup →
      (∀ t2 did2, did2 ∈ docs.map Prod.fst → lookup2 dict t2 did2 = none) →
      ((blocksFrom policy dict docs).filterMap fun b => lookup2 b t did)
        = ((lookup2 dict t did).or (docTf docs t did)).toList := by
  induction docs with
  | nil =>
    intro dict t did hwf _ _
    have hdoc : docTf [] t did = none := rfl
    simp only [blocksFrom, hdoc, Option.or_none]
    by_cases h : dict.isEmpty
    · have hdnil : dict = [] := by
        cases dict with
        | nil => rfl
        | cons e r => simp at h
      rw [if_pos h, hdnil]
      simp [lookup2, dlookup]
    · rw [if_neg h, filterMap_cons_toList]
      have hbd : lookup2 (blockData dict) t did = lookup2 dict t did := by
        unfold lookup2; rw [blockData_lookup]
      simp [hbd]
  | cons doc rest ih =>
    intro dict t did hwf hnd hdisj
    obtain ⟨d0, toks⟩ := doc
    simp only [List.map_cons, List.nodup_cons] at hnd
    have hwf' : WFDict (procTokens dict d0 toks) := procTokens_WF toks dict d0 hwf
    have hl2 : ∀ t2 did2, lookup2 (procTokens dict d0 toks) t2 did2 =
        if did2 = d0 then
          (if 0 < toks.count t2 then some ((lookup2 dict t2 d0).getD 0 + toks.count t2)
          else lookup2 dict t2 d0)
        else lookup2 dict t2 did2 := fun t2 did2 => procTokens_lookup2 toks dict d0 t2 did2
    have hd0 : ∀ t2, lookup2 dict t2 d0 = none := fun t2 => hdisj t2 d0 (by simp)
    have hdisj' : ∀ t2 did2, did2 ∈ rest.map Prod.fst →
        lookup2 (procTokens dict d0 toks) t2 did2 = none := by
      intro t2 did2 hmem
      rw [hl2]
      have hne : did2 ≠ d0 := fun hh => hnd.1 (hh ▸ hmem)
      rw [if_neg hne]
      exact hdisj t2 did2 (by simp [hmem])
    have hl2' : lookup2 (procTokens dict d0 toks) t d0 =
        (if 0 < toks.count t then some (toks.count t) else none) := by
      rw [hl2, if_pos rfl, hd0 t]
      by_cases hc : 0 < toks.count t
      · simp [hc]
      · simp [hc]
    have hrest_none : did = d0 → docTf rest t did = none := by
      intro hdd
      subst hdd
      have hdl : dlookup rest did = none := by
        rw [dlookup_eq_none_iff_not_mem]; exact hnd.1
      simp [docTf, hdl]
    have hunfold : blocksFrom policy dict ((d0, toks) :: rest) =
        if policy (procTokens dict d0 toks) then
          blockData (procTokens dict d0 toks) :: blocksFrom policy [] rest
        else blocksFrom policy (procTokens dict d0 toks) rest := rfl
    rw [hunfold]
    by_cases hpol : policy (procTokens dict d0 toks)
    · rw [if_pos hpol, filterMap_cons_toList]
      have hbd : lookup2 (blockData (procTokens dict d0 toks)) t did =
          lookup2 (procTokens dict d0 toks) t did := by
        unfold lookup2; rw [blockData_lookup]
      rw [hbd, ih [] t did WFDict_nil hnd.2 (fun _ _ _ => rfl)]
      by_cases hdd : did = d0
      · subst hdd
        rw [hl2', hrest_none rfl, hd0 t]
        rw [show docTf ((did, toks) :: rest) t did =
            (if 0 < toks.count t then some (toks.count t) else none) from by
          simp [docTf, dlookup]]
        by_cases hc : 0 < toks.count t <;> simp [hc, lookup2, dlookup]
      · rw [show lookup2 (procTokens dict d0 toks) t did = lookup2 dict t did from by
          rw [hl2, if_neg hdd]]
        rw [show docTf ((d0, toks) :: rest) t did = docTf rest t did from by
          simp [docTf, dlookup, Ne.symm hdd]]
        cases hld : lookup2 dict t did with
        | none => simp [lookup2, dlookup]
        | some v =>
          have hdt : docTf rest t did = none := by
            cases hdt : docTf rest t did with
            | none => rfl
            | some w =>
              exfalso
              have hmem : did ∈ rest.map Prod.fst := by
                simp only [docTf] at hdt
                cases hdl : dlookup rest did with
                | none => rw [hdl] at hdt; simp at hdt
                | some toks2 =>
                  exact (dlookup_isSome_iff_mem rest did).mp (by simp [hdl])
              have hcontr := hdisj t did (by simp [hmem])
              rw [hcontr] at hld
              exact Option.noConfusion hld
          simp [hdt, lookup2, dlookup]
    · rw [if_neg hpol]
      rw [ih (procTokens dict d0 toks) t did hwf' hnd.2 hdisj']
      by_cases hdd : did = d0
      · subst hdd
        rw [hl2', hrest_none rfl, hd0 t]
        rw [show docTf ((did, toks) :: rest) t did =
            (if 0 < toks.count t then some (toks.count t) else none) from by
          simp [docTf, dlookup]]
        by_cases hc : 0 < toks.count t <;> simp [hc]
      · rw [show lookup2 (procTokens dict d0 toks) t did = lookup2 dict t did from by
          rw [hl2, if_neg hdd]]
        rw [show docTf ((d0, toks) :: rest) t did = docTf rest t did from by
          simp [docTf, dlookup, Ne.symm hdd]]

theorem readOrder_perm (blocks : List Block) : (readOrder blocks).Perm blocks := by
  unfold readOrder
  have hperm := (List.perm_insertionSort
    (fun x y : Block × Nat => strLe (blockFileName x.2) (blockFileName y.2))
    ((blocks.zip (List.range blocks.length)).map fun p => (p.1, p.2 + 1))).map Prod.fst
  refine hperm.trans ?_
  rw [List.map_map]
  rw [show (Prod.fst ∘ fun p : Block × Nat => (p.1, p.2 + 1)) = Prod.fst from rfl]
  rw [List.map_fst_zip _ _ (by simp)]

theorem foldl_or_lookup (ps : List Postings) :
    ∀ (a : Option Nat) (k : String),
      List.foldl (fun acc q => (dlookup q k).or acc) a ps
        = ((ps.filterMap fun q => dlookup q k).getLast?).or a := by
  induction ps with
  | nil => intro a k; simp
  | cons q ps ih =>
    intro a k
    rw [List.foldl_cons, ih, filterMap_cons_toList, List.getLast?_append]
    cases hlast : (ps.filterMap fun x => dlookup x k).getLast? with
    | some v => simp
    | none =>
      cases hd : dlookup q k <;> simp [hd]

theorem dlookup_foldl_dupdate_or (ps : List Postings) :
    ∀ (p : Postings) (k : String), (∀ q ∈ ps, (q.map Prod.fst).Nodup) →
      dlookup (List.foldl dupdate p ps) k
        = List.foldl (fun acc q => (dlookup q k).or acc) (dlookup p k) ps := by
  induction ps with
  | nil => intro p k _; rfl
  | cons q ps ih =>
    intro p k h
    rw [List.foldl_cons, List.foldl_cons, ih _ k (fun x hx => h x (by simp [hx])),
      dlookup_dupdate p q k (h q (by simp))]

theorem dlookup_foldl_dupdate (p : Postings) (ps : List Postings) (k : String)
    (h : ∀ q ∈ ps, (q.map Prod.fst).Nodup) :
    dlookup (List.foldl dupdate p ps) k
      = ((p :: ps).filterMap fun q => dlookup q k).getLast? := by
  rw [dlookup_foldl_dupdate_or ps p k h, foldl_or_lookup, filterMap_cons_toList,
    List.getLast?_append]
  cases hlast : (ps.filterMap fun q => dlookup q k).getLast? with
  | some v => simp
  | none => cases hd : dlookup p k <;> simp [hd]

/-- Master correctness of the build: after `run_indexing` plus `merge_blocks`
on a stream with pairwise-distinct doc_ids, the final entry for term `t`
maps `did` to exactly the number of occurrences of `t` in document `did`. -/
theorem fullBuild_lookup (policy : TermDict → Bool) (docs : List (String × List String))
    (hnd : (docs.map Prod.fst).Nodup) (t did : String) :
    lookup2 (fullBuild policy docs).entries t did = docTf docs t did := by
  have hblocks : (runIndexing policy initState docs).blocks = blocksFrom policy [] docs := by
    rw [runIndexing_blocks]; rfl
  have hvals := blocksFrom_vals policy docs [] t did WFDict_nil hnd (fun _ _ _ => rfl)
  have hentries : (fullBuild policy docs).entries
      = mergeCore (readOrder (blocksFrom policy [] docs)) := by
    simp only [fullBuild, hblocks]
  have hperm : (readOrder (blocksFrom policy [] docs)).Perm (blocksFrom policy [] docs) :=
    readOrder_perm _
  have hprops := blocksFrom_props policy docs [] WFDict_nil
  have hsorted : ∀ s ∈ readOrder (blocksFrom policy [] docs),
      List.Pairwise (fun a b => strLtb a.1 b.1 = true) s :=
    fun s hs => (hprops s (hperm.mem_iff.mp hs)).1
  have hlook := mergeCore_lookup (readOrder (blocksFrom policy [] docs)) hsorted t
  have hpermvals : ((readOrder (blocksFrom policy [] docs)).filterMap
      fun b => lookup2 b t did).Perm
      ((blocksFrom policy [] docs).filterMap fun b => lookup2 b t did) := hperm.filterMap _
  rw [hvals] at hpermvals
  rw [show lookup2 ([] : TermDict) t did = none from rfl, Option.none_or] at hpermvals
  have hvals' : ((readOrder (blocksFrom policy [] docs)).filterMap fun b => lookup2 b t did)
      = (docTf docs t did).toList := by
    cases hdt : docTf docs t did with
    | none =>
      rw [hdt] at hpermvals
      exact List.Perm.eq_nil (by simpa using hpermvals)
    | some v =>
      rw [hdt] at hpermvals
      exact List.perm_singleton.mp (by simpa using hpermvals)
  have hcomp : ((readOrder (blocksFrom policy [] docs)).filterMap fun b => lookup2 b t did)
      = (((readOrder (blocksFrom policy [] docs)).filterMap fun s => dlookup s t).filterMap
          fun p => dlookup p did) := by
    rw [List.filterMap_filterMap]
    rfl
  rw [hentries]
  unfold lookup2
  rw [hlook]
  cases hfm : ((readOrder (blocksFrom policy [] docs)).filterMap fun s => dlookup s t) with
  | nil =>
    rw [hfm] at hcomp
    simp only [List.filterMap_nil] at hcomp
    rw [hcomp] at hvals'
    cases hdt : docTf docs t did with
    | none => rfl
    | some v => rw [hdt] at hvals'; simp at hvals'
  | cons p ps =>
    have hndkeys : ∀ q ∈ ps, (q.map Prod.fst).Nodup := by
      intro q hq
      have hq' : q ∈ p :: ps := List.mem_cons_of_mem _ hq
      rw [← hfm] at hq'
      obtain ⟨s, hs, hsq⟩ := List.mem_filterMap.mp hq'
      have hsb : s ∈ blocksFrom policy [] docs := hperm.mem_iff.mp hs
      exact ((hprops s hsb).2 (t, q) (dlookup_mem s t q hsq)).1
    have hbind : (match p :: ps with
        | [] => (none : Option Postings)
        | p :: ps => some (List.foldl dupdate p ps)).bind (fun pp => dlookup pp did)
        = dlookup (List.foldl dupdate p ps) did := rfl
    rw [hbind, dlookup_foldl_dupdate p ps did hndkeys, ← hfm, ← hcomp, hvals']
    cases docTf docs t did <;> simp

theorem pairwise_strLtb_nodup (l : List String)
    (h : List.Pairwise (fun a b => strLtb a b = true) l) : l.Nodup :=
  h.imp fun hab heq => by
    subst heq
    exact absurd hab (by simp [strLtb_irrefl])

/-- The lexicon laid out entry-by-entry from a given start offset. -/
def lexEntries : List (String × Postings) → Nat → List (String × (Nat × Nat))
  | [], _ => []
  | e :: rest, off =>
    (e.1, (off, (serPostings e.2).length)) :: lexEntries rest (off + (serPostings e.2).length)

theorem lexiconOf_aux (entries : List (String × Postings)) :
    ∀ (acc : List (String × (Nat × Nat))) (off : Nat),
      (∀ e ∈ entries, e.1 ∉ acc.map Prod.fst) → (entries.map Prod.fst).Nodup →
      (entries.foldl
        (fun acc2 e =>
          (dinsert acc2.1 e.1 (acc2.2, (serPostings e.2).length),
            acc2.2 + (serPostings e.2).length))
        (acc, off)).1 = acc ++ lexEntries entries off := by
  induction entries with
  | nil => intro acc off _ _; simp [lexEntries]
  | cons e rest ih =>
    intro acc off hdisj hnd
    simp only [List.map_cons, List.nodup_cons] at hnd
    have hfresh : e.1 ∉ acc.map Prod.fst := hdisj e (by simp)
    have hins : dinsert acc e.1 (off, (serPostings e.2).length)
        = acc ++ [(e.1, (off, (serPostings e.2).length))] :=
      dinsert_fresh_append acc e.1 _ hfresh
    have hdisj' : ∀ x ∈ rest, x.1 ∉ (dinsert acc e.1 (off, (serPostings e.2).length)).map Prod.fst := by
      intro x hx
      rw [hins]
      simp only [List.map_append, List.mem_append, List.map_cons, List.map_nil,
        List.mem_singleton]
      rintro (hin | hin)
      · exact hdisj x (by simp [hx]) hin
      · exact hnd.1 (hin ▸ List.mem_map_of_mem Prod.fst hx)
    rw [List.foldl_cons]
    rw [ih _ _ hdisj' hnd.2, hins]
    simp [lexEntries]

theorem lexiconOf_eq (entries : List (String × Postings))
    (h : (entries.map Prod.fst).Nodup) : lexiconOf entries = lexEntries entries 0 := by
  have := lexiconOf_aux entries [] 0 (by simp) h
  simpa [lexiconOf] using this

theorem lex_slice (entries : List (String × Postings)) :
    ∀ (off : Nat) (t : String) (p : Postings),
      dlookup entries t = some p →
      ∃ o l, dlookup (lexEntries entries off) t = some (o, l) ∧ off ≤ o ∧
        ((bytesOf entries).drop (o - off)).take l = serPostings p := by
  induction entries with
  | nil => intro off t p h; simp [dlookup] at h
  | cons e rest ih =>
    intro off t p h
    by_cases he : e.1 = t
    · obtain ⟨k, v⟩ := e
      simp only at he
      subst he
      have hp : v = p := by simpa [dlookup] using h
      subst hp
      refine ⟨off, (serPostings v).length, ?_, le_refl _, ?_⟩
      · simp [lexEntries, dlookup]
      · simp only [Nat.sub_self, List.drop_zero]
        rw [show bytesOf ((k, v) :: rest) = serPostings v ++ bytesOf rest from by
          simp [bytesOf]]
        exact List.take_left _ _
    · have h' : dlookup rest t = some p := by
        cases e
        simpa [dlookup, he] using h
      obtain ⟨o, l, h1, h2, h3⟩ := ih (off + (serPostings e.2).length) t p h'
      refine ⟨o, l, ?_, by omega, ?_⟩
      · cases e
        simpa [lexEntries, dlookup, he] using h1
      · have harith : o - off = (serPostings e.2).length + (o - (off + (serPostings e.2).length)) := by
          omega
      -- bytesOf (e :: rest) = serPostings e.2 ++ bytesOf rest
        rw [show bytesOf (e :: rest) = serPostings e.2 ++ bytesOf rest from by
          simp [bytesOf]]
        rw [harith, List.drop_append]
        exact h3

theorem getPostings_build (entries : List (String × Postings))
    (h : (entries.map Prod.fst).Nodup) (t : String) (p : Postings)
    (hp : dlookup entries t = some p) :
    getPostings (lexiconOf entries) (bytesOf entries) t = some p := by
  rw [lexiconOf_eq entries h]
  obtain ⟨o, l, h1, _, h3⟩ := lex_slice entries 0 t p hp
  unfold getPostings
  rw [h1]
  show deserPostings (((bytesOf entries).drop o).take l) = some p
  simp only [Nat.sub_zero] at h3
  rw [h3, deserPostings_serPostings]

theorem fullBuild_entries_sorted (policy : TermDict → Bool) (docs : List (String × List String)) :
    List.Pairwise (fun a b => strLtb a b = true)
      ((fullBuild policy docs).entries.map Prod.fst) := by
  have hblocks : (runIndexing policy initState docs).blocks = blocksFrom policy [] docs := by
    rw [runIndexing_blocks]; rfl
  have hperm := readOrder_perm (blocksFrom policy [] docs)
  have hprops := blocksFrom_props policy docs [] WFDict_nil
  have hentries : (fullBuild policy docs).entries
      = mergeCore (readOrder (blocksFrom policy [] docs)) := by
    simp only [fullBuild, hblocks]
  rw [hentries]
  exact mergeCore_sorted _ fun s hs => (hprops s (hperm.mem_iff.mp hs)).1

/-- C1: after the full build (`run_indexing` then `merge_blocks`) over a
stream with pairwise-distinct doc_ids, for every document `did` and term `t`
occurring in it with raw count `c`, the posting list addressed by the lexicon
for `t` in the final postings file maps `did` to exactly `c`. -/
theorem build_posting_counts (policy : TermDict → Bool) (docs : List (String × List String))
    (hnd : (docs.map Prod.fst).Nodup) (did : String) (toks : List String) (t : String)
    (hmem : (did, toks) ∈ docs) (hc : 0 < toks.count t) :
    ∃ p, getPostings (fullBuild policy docs).lexicon (fullBuild policy docs).fileBytes t = some p
      ∧ dlookup p did = some (toks.count t) := by
  have hdl : dlookup docs did = some toks := dlookup_of_mem_nodup docs did toks hnd hmem
  have hdt : docTf docs t did = some (toks.count t) := by
    simp [docTf, hdl, hc]
  have hl2 := fullBuild_lookup policy docs hnd t did
  rw [hdt] at hl2
  unfold lookup2 at hl2
  cases hent : dlookup (fullBuild policy docs).entries t with
  | none => rw [hent] at hl2; simp at hl2
  | some p =>
    rw [hent] at hl2
    simp only [Option.some_bind] at hl2
    refine ⟨p, ?_, hl2⟩
    have hnodup : ((fullBuild policy docs).entries.map Prod.fst).Nodup :=
      pairwise_strLtb_nodup _ (fullBuild_entries_sorted policy docs)
    have hfb : (fullBuild policy docs).lexicon = lexiconOf (fullBuild policy docs).entries := rfl
    have hfb2 : (fullBuild policy docs).fileBytes = bytesOf (fullBuild policy docs).entries := rfl
    rw [hfb, hfb2]
    exact getPostings_build _ hnodup t p hent

theorem build_posting_counts_witness :
    (((([("d1", ["apple", "banana", "apple"]), ("d2", ["apple", "cherry"]),
        ("d3", ["banana", "banana", "date"])] : List (String × List String))).map
          Prod.fst).Nodup) ∧
    ("d1", ["apple", "banana", "apple"]) ∈
      ([("d1", ["apple", "banana", "apple"]), ("d2", ["apple", "cherry"]),
        ("d3", ["banana", "banana", "date"])] : List (String × List String)) ∧
    0 < (["apple", "banana", "apple"] : List String).count "apple" ∧
    ∃ p, getPostings
        (fullBuild (fun _ => true)
          [("d1", ["apple", "banana", "apple"]), ("d2", ["apple", "cherry"]),
            ("d3", ["banana", "banana", "date"])]).lexicon
        (fullBuild (fun _ => true)
          [("d1", ["apple", "banana", "apple"]), ("d2", ["apple", "cherry"]),
            ("d3", ["banana", "banana", "date"])]).fileBytes "apple" = some p
      ∧ dlookup p "d1" = some ((["apple", "banana", "apple"] : List String).count "apple") :=
  ⟨by decide, by decide, by decide,
    build_posting_counts (fun _ => true) _ (by decide) "d1" _ "apple" (by decide) (by decide)⟩

/-! ## Lexicon layout (claim C5) -/

theorem lexEntries_map_fst (entries : List (String × Postings)) :
    ∀ off, (lexEntries entries off).map Prod.fst = entries.map Prod.fst := by
  induction entries with
  | nil => intro off; rfl
  | cons e rest ih => intro off; simp [lexEntries, ih]

/-- Byte ranges are contiguous from a start offset: each entry begins exactly
where the previous one ended. -/
def contiguousFrom : Nat → List (String × (Nat × Nat)) → Bool
  | _, [] => true
  | off, e :: rest => decide (e.2.1 = off) && contiguousFrom (e.2.1 + e.2.2) rest

theorem contiguousFrom_lexEntries (entries : List (String × Postings)) :
    ∀ off, contiguousFrom off (lexEntries entries off) = true := by
  induction entries with
  | nil => intro off; rfl
  | cons e rest ih => intro off; simp [lexEntries, contiguousFrom, ih]

theorem lexEntries_len_sum (entries : List (String × Postings)) :
    ∀ off, ((lexEntries entries off).map fun e => e.2.2).sum = (bytesOf entries).length := by
  induction entries with
  | nil => intro off; rfl
  | cons e rest ih =>
    intro off
    simp [lexEntries, bytesOf, ih]

theorem lexEntries_off_ge (entries : List (String × Postings)) :
    ∀ off, ∀ e ∈ lexEntries entries off, off ≤ e.2.1 := by
  induction entries with
  | nil => intro off e he; simp [lexEntries] at he
  | cons x rest ih =>
    intro off e he
    simp only [lexEntries, List.mem_cons] at he
    rcases he with rfl | he
    · exact le_refl _
    · exact le_trans (by omega) (ih _ e he)

theorem lexEntries_disjoint (entries : List (String × Postings)) :
    ∀ off, List.Pairwise (fun a b => a.2.1 + a.2.2 ≤ b.2.1) (lexEntries entries off) := by
  induction entries with
  | nil => intro off; simp [lexEntries]
  | cons x rest ih =>
    intro off
    simp only [lexEntries]
    refine List.Pairwise.cons ?_ (ih _)
    intro e he
    exact lexEntries_off_ge rest _ e he

theorem lexEntries_pos_len (entries : List (String × Postings)) :
    ∀ off, ∀ e ∈ lexEntries entries off, 0 < e.2.2 := by
  induction entries with
  | nil => intro off e he; simp [lexEntries] at he
  | cons x rest ih =>
    intro off e he
    simp only [lexEntries, List.mem_cons] at he
    rcases he with rfl | he
    · exact serPostings_length_pos _
    · exact ih _ e he

/-- C5: after `merge_blocks` on a non-empty list of term-sorted block files,
the persisted lexicon covers every term of the final postings file exactly
once and in ascending term order; its byte ranges are contiguous starting at
offset 0 (hence pairwise disjoint), offsets strictly increase, and the range
lengths sum to the length of the final postings file (full coverage, no
gaps). -/
theorem merge_lexicon_layout (blocks : List Block) (hne : blocks ≠ [])
    (hs : ∀ b ∈ blocks, List.Pairwise (fun a b => strLtb a.1 b.1 = true) b) :
    ((lexiconOf (mergeCore (readOrder blocks))).map Prod.fst
        = (mergeCore (readOrder blocks)).map Prod.fst) ∧
    ((lexiconOf (mergeCore (readOrder blocks))).map Prod.fst).Nodup ∧
    List.Pairwise (fun a b => strLtb a b = true)
      ((lexiconOf (mergeCore (readOrder blocks))).map Prod.fst) ∧
    contiguousFrom 0 (lexiconOf (mergeCore (readOrder blocks))) = true ∧
    ((lexiconOf (mergeCore (readOrder blocks))).map fun e => e.2.2).sum
        = (bytesOf (mergeCore (readOrder blocks))).length ∧
    List.Pairwise (fun a b => a.2.1 + a.2.2 ≤ b.2.1)
      (lexiconOf (mergeCore (readOrder blocks))) ∧
    List.Pairwise (fun a b => a.2.1 < b.2.1) (lexiconOf (mergeCore (readOrder blocks))) := by
  have hperm := readOrder_perm blocks
  have hsorted := mergeCore_sorted (readOrder blocks)
    fun s hsm => hs s (hperm.mem_iff.mp hsm)
  have hnd : ((mergeCore (readOrder blocks)).map Prod.fst).Nodup :=
    pairwise_strLtb_nodup _ hsorted
  have hlex := lexiconOf_eq _ hnd
  rw [hlex]
  refine ⟨lexEntries_map_fst _ 0, ?_, ?_, contiguousFrom_lexEntries _ 0,
    lexEntries_len_sum _ 0, lexEntries_disjoint _ 0, ?_⟩
  · rw [lexEntries_map_fst _ 0]; exact hnd
  · rw [lexEntries_map_fst _ 0]; exact hsorted
  · refine (lexEntries_disjoint _ 0).imp_of_mem ?_
    intro a b ha _ hab
    have := lexEntries_pos_len _ 0 a ha
    omega

theorem merge_lexicon_layout_witness :
    (([[("a", [("d", 1)])], [("b", [("e", 2)])]] : List Block) ≠ []) ∧
    (∀ b ∈ ([[("a", [("d", 1)])], [("b", [("e", 2)])]] : List Block),
      List.Pairwise (fun x y => strLtb x.1 y.1 = true) b) ∧
    (((lexiconOf (mergeCore (readOrder [[("a", [("d", 1)])], [("b", [("e", 2)])]]))).map
          Prod.fst
        = (mergeCore (readOrder [[("a", [("d", 1)])], [("b", [("e", 2)])]])).map Prod.fst) ∧
      ((lexiconOf (mergeCore (readOrder [[("a", [("d", 1)])], [("b", [("e", 2)])]]))).map
          Prod.fst).Nodup ∧
      List.Pairwise (fun a b => strLtb a b = true)
        ((lexiconOf (mergeCore (readOrder [[("a", [("d", 1)])], [("b", [("e", 2)])]]))).map
          Prod.fst) ∧
      contiguousFrom 0
          (lexiconOf (mergeCore (readOrder [[("a", [("d", 1)])], [("b", [("e", 2)])]])))
        = true ∧
      ((lexiconOf (mergeCore (readOrder [[("a", [("d", 1)])], [("b", [("e", 2)])]]))).map
          fun e => e.2.2).sum
        = (bytesOf (mergeCore (readOrder [[("a", [("d", 1)])], [("b", [("e", 2)])]]))).length ∧
      List.Pairwise (fun a b => a.2.1 + a.2.2 ≤ b.2.1)
        (lexiconOf (mergeCore (readOrder [[("a", [("d", 1)])], [("b", [("e", 2)])]]))) ∧
      List.Pairwise (fun a b => a.2.1 < b.2.1)
        (lexiconOf (mergeCore (readOrder [[("a", [("d", 1)])], [("b", [("e", 2)])]])))) :=
  ⟨by decide, by decide, merge_lexicon_layout _ (by decide) (by decide)⟩

/-! ## Same-key collisions in the merge (claim C2) -/

/-- C2 amended: when two blocks carry the same term, `merge_blocks` combines
their posting dicts with `current_postings.update(postings)`: for every
doc_id present in the later-popped block, the later tf replaces the earlier
one (last writer wins); keys only in the earlier block are kept. -/
theorem merge_collision_overwrites (p1 p2 : Postings) (t : String)
    (hnd : (p2.map Prod.fst).Nodup) :
    mergeCore (readOrder [[(t, p1)], [(t, p2)]]) = [(t, dupdate p1 p2)] ∧
    (∀ did v, dlookup p2 did = some v → dlookup (dupdate p1 p2) did = some v) ∧
    (∀ did, dlookup p2 did = none → dlookup (dupdate p1 p2) did = dlookup p1 did) := by
  refine ⟨?_, ?_, ?_⟩
  · have hrange : List.range (List.length [[(t, p1)], [(t, p2)]]) = [0, 1] := rfl
    have hcmp : strLe (blockFileName 1) (blockFileName 2) := by decide
    have hro : readOrder [[(t, p1)], [(t, p2)]] = [[(t, p1)], [(t, p2)]] := by
      unfold readOrder
      rw [hrange]
      simp only [List.zip, List.zipWith, List.map]
      rw [show List.insertionSort
          (fun x y : Block × Nat => strLe (blockFileName x.2) (blockFileName y.2))
          [([(t, p1)], 1), ([(t, p2)], 2)]
          = [([(t, p1)], 1), ([(t, p2)], 2)] from by
        simp [List.insertionSort, List.orderedInsert, hcmp]]
      simp
    have hpm1 : pickMin [[(t, p1)], [(t, p2)]] = some (0, t) := by
      simp [pickMin, pickMinAux, strLtb_irrefl]
    have hpm2 : pickMin [([] : Block), [(t, p2)]] = some (1, t) := by
      simp [pickMin, pickMinAux]
    rw [hro]
    show mergeSteps 2 [[(t, p1)], [(t, p2)]] none [] = [(t, dupdate p1 p2)]
    rw [show (2 : Nat) = 1 + 1 from rfl]
    simp only [mergeSteps, hpm1]
    rw [show ([[(t, p1)], [(t, p2)]] : List Block).getD 0 [] = [(t, p1)] from rfl]
    simp only [List.head?_cons, List.tail_cons]
    rw [show ([[(t, p1)], [(t, p2)]] : List Block).set 0 ([] : Block) = [[], [(t, p2)]] from rfl]
    rw [hpm2]
    simp [List.getD]
  · intro did v h
    rw [dlookup_dupdate p1 p2 did hnd, h]
    rfl
  · intro did h
    rw [dlookup_dupdate p1 p2 did hnd, h]
    rfl

theorem merge_collision_overwrites_witness :
    ((([("d", 2)] : Postings).map Prod.fst).Nodup) ∧
    (mergeCore (readOrder [[("t", [("d", 1)])], [("t", [("d", 2)])]])
        = [("t", dupdate [("d", 1)] [("d", 2)])] ∧
      (∀ did v, dlookup ([("d", 2)] : Postings) did = some v →
        dlookup (dupdate [("d", 1)] [("d", 2)]) did = some v) ∧
      (∀ did, dlookup ([("d", 2)] : Postings) did = none →
        dlookup (dupdate [("d", 1)] [("d", 2)]) did = dlookup [("d", 1)] did)) :=
  ⟨by decide, merge_collision_overwrites [("d", 1)] [("d", 2)] "t" (by decide)⟩

/-! ## Single-block vs per-document builds (claim C6) -/

theorem foldl_dupdate_ne_nil (ps : List Postings) :
    ∀ p : Postings, p ≠ [] → List.foldl dupdate p ps ≠ [] := by
  induction ps with
  | nil => intro p h; exact h
  | cons q ps ih =>
    intro p h
    exact ih (dupdate p q) (dupdate_ne_nil p q h)

theorem fullBuild_entry_postings_ne_nil (policy : TermDict → Bool)
    (docs : List (String × List String)) (t : String) (P : Postings)
    (h : dlookup (fullBuild policy docs).entries t = some P) : P ≠ [] := by
  have hblocks : (runIndexing policy initState docs).blocks = blocksFrom policy [] docs := by
    rw [runIndexing_blocks]; rfl
  have hperm := readOrder_perm (blocksFrom policy [] docs)
  have hprops := blocksFrom_props policy docs [] WFDict_nil
  have hentries : (fullBuild policy docs).entries
      = mergeCore (readOrder (blocksFrom policy [] docs)) := by
    simp only [fullBuild, hblocks]
  rw [hentries, mergeCore_lookup _ (fun s hs => (hprops s (hperm.mem_iff.mp hs)).1) t] at h
  cases hfm : ((readOrder (blocksFrom policy [] docs)).filterMap fun s => dlookup s t) with
  | nil => rw [hfm] at h; simp at h
  | cons p ps =>
    rw [hfm] at h
    have hP : P = List.foldl dupdate p ps := by
      have hred : (match p :: ps with
          | [] => (none : Option Postings)
          | p :: ps => some (List.foldl dupdate p ps)) = some (List.foldl dupdate p ps) := rfl
      rw [hred] at h
      simpa using h.symm
    have hpmem : p ∈ ((readOrder (blocksFrom policy [] docs)).filterMap fun s => dlookup s t) := by
      rw [hfm]; simp
    obtain ⟨s, hsmem, hsl⟩ := List.mem_filterMap.mp hpmem
    have hpne : p ≠ [] :=
      ((hprops s (hperm.mem_iff.mp hsmem)).2 (t, p) (dlookup_mem s t p hsl)).2
    rw [hP]
    exact foldl_dupdate_ne_nil ps p hpne

theorem fullBuild_mem_fst_iff (policy : TermDict → Bool)
    (docs : List (String × List String)) (hnd : (docs.map Prod.fst).Nodup) (t : String) :
    t ∈ (fullBuild policy docs).entries.map Prod.fst ↔
      ∃ did v, docTf docs t did = some v := by
  constructor
  · intro hmem
    have hsome : (dlookup (fullBuild policy docs).entries t).isSome :=
      (dlookup_isSome_iff_mem _ t).mpr hmem
    cases hent : dlookup (fullBuild policy docs).entries t with
    | none => rw [hent] at hsome; simp at hsome
    | some P =>
      have hne := fullBuild_entry_postings_ne_nil policy docs t P hent
      cases hP : P with
      | nil => exact absurd hP hne
      | cons e P' =>
        obtain ⟨d0, v0⟩ := e
        refine ⟨d0, v0, ?_⟩
        have hl2 : lookup2 (fullBuild policy docs).entries t d0 = some v0 := by
          unfold lookup2
          rw [hent, hP]
          simp [dlookup]
        rw [← fullBuild_lookup policy docs hnd t d0]
        exact hl2
  · rintro ⟨did, v, hv⟩
    have hl2 := fullBuild_lookup policy docs hnd t did
    rw [hv] at hl2
    unfold lookup2 at hl2
    cases hent : dlookup (fullBuild policy docs).entries t with
    | none => rw [hent] at hl2; simp at hl2
    | some P =>
      rw [← dlookup_isSome_iff_mem]
      rw [hent]
      rfl

instance : IsAntisymm String (fun a b => strLtb a b = true) :=
  ⟨fun a b h1 h2 => absurd (strLtb_trans h1 h2) (by simp [strLtb_irrefl])⟩

/-- C6 amended: rebuilding with any two flush policies (in particular a limit
large enough for a single block versus one forcing a block per document)
yields the same final state up to the insertion order inside each serialized
posting dict: identical lexicon term sequences, identical term sequences in
the final file, and for every term and doc_id the same tf. (Byte-identity of
the postings file fails in general; see the counterexample.) -/
theorem builds_agree_up_to_posting_order (p1 p2 : TermDict → Bool)
    (docs : List (String × List String)) (hnd : (docs.map Prod.fst).Nodup) :
    (fullBuild p1 docs).entries.map Prod.fst = (fullBuild p2 docs).entries.map Prod.fst ∧
    (fullBuild p1 docs).lexicon.map Prod.fst = (fullBuild p2 docs).lexicon.map Prod.fst ∧
    ∀ t did, lookup2 (fullBuild p1 docs).entries t did
      = lookup2 (fullBuild p2 docs).entries t did := by
  have hfst : (fullBuild p1 docs).entries.map Prod.fst
      = (fullBuild p2 docs).entries.map Prod.fst := by
    have hs1 := fullBuild_entries_sorted p1 docs
    have hs2 := fullBuild_entries_sorted p2 docs
    have hn1 := pairwise_strLtb_nodup _ hs1
    have hn2 := pairwise_strLtb_nodup _ hs2
    refine List.eq_of_perm_of_sorted ?_ hs1 hs2
    refine List.perm_of_nodup_nodup_toFinset_eq hn1 hn2 ?_
    ext a
    simp only [List.mem_toFinset]
    rw [fullBuild_mem_fst_iff p1 docs hnd a, fullBuild_mem_fst_iff p2 docs hnd a]
  refine ⟨hfst, ?_, ?_⟩
  · have hl1 : (fullBuild p1 docs).lexicon
        = lexiconOf (fullBuild p1 docs).entries := rfl
    have hl2 : (fullBuild p2 docs).lexicon
        = lexiconOf (fullBuild p2 docs).entries := rfl
    rw [hl1, hl2,
      lexiconOf_eq _ (pairwise_strLtb_nodup _ (fullBuild_entries_sorted p1 docs)),
      lexiconOf_eq _ (pairwise_strLtb_nodup _ (fullBuild_entries_sorted p2 docs)),
      lexEntries_map_fst _ 0, lexEntries_map_fst _ 0]
    exact hfst
  · intro t did
    rw [fullBuild_lookup p1 docs hnd t did, fullBuild_lookup p2 docs hnd t did]

set_option maxRecDepth 10000 in
/-- C6 as stated is false: on eleven one-token documents sharing the term
"t", the single-block build and the block-per-document build produce
different final postings files. `merge_blocks` sorts block file names
lexicographically, so `block_10.bin` and `block_11.bin` are read before
`block_2.bin`, permuting the insertion order of the doc_ids inside the
posting dict and hence its serialized bytes. -/
theorem builds_byte_identity_counterexample :
    ¬((fullBuild (fun _ => false)
          ((["a", "b", "c", "d", "e", "f", "g", "h", "i", "j", "k"] : List String).map
            fun s => (s, ["t"]))).fileBytes
        = (fullBuild (fun _ => true)
          ((["a", "b", "c", "d", "e", "f", "g", "h", "i", "j", "k"] : List String).map
            fun s => (s, ["t"]))).fileBytes) := by
  decide

theorem builds_agree_up_to_posting_order_witness :
    ((([("d1", ["apple", "banana", "apple"]), ("d2", ["apple", "cherry"]),
        ("d3", ["banana", "banana", "date"])] : List (String × List String)).map
          Prod.fst).Nodup) ∧
    ((fullBuild (fun _ => false)
        [("d1", ["apple", "banana", "apple"]), ("d2", ["apple", "cherry"]),
          ("d3", ["banana", "banana", "date"])]).entries.map Prod.fst
      = (fullBuild (fun _ => true)
        [("d1", ["apple", "banana", "apple"]), ("d2", ["apple", "cherry"]),
          ("d3", ["banana", "banana", "date"])]).entries.map Prod.fst ∧
    (fullBuild (fun _ => false)
        [("d1", ["apple", "banana", "apple"]), ("d2", ["apple", "cherry"]),
          ("d3", ["banana", "banana", "date"])]).lexicon.map Prod.fst
      = (fullBuild (fun _ => true)
        [("d1", ["apple", "banana", "apple"]), ("d2", ["apple", "cherry"]),
          ("d3", ["banana", "banana", "date"])]).lexicon.map Prod.fst ∧
    ∀ t did, lookup2 (fullBuild (fun _ => false)
        [("d1", ["apple", "banana", "apple"]), ("d2", ["apple", "cherry"]),
          ("d3", ["banana", "banana", "date"])]).entries t did
      = lookup2 (fullBuild (fun _ => true)
        [("d1", ["apple", "banana", "apple"]), ("d2", ["apple", "cherry"]),
          ("d3", ["banana", "banana", "date"])]).entries t did) :=
  ⟨by decide, builds_agree_up_to_posting_order (fun _ => false) (fun _ => true) _ (by decide)⟩

/-! ## BM25 ranker (src/ranking/bm25.py)

Floating-point arithmetic is modelled exactly in a linear ordered field `F`
with `log : F → F` standing for `np.log`; the ranker itself is instantiated
at `F := ℝ`, `log := Real.log`. -/

/-- Python set semantics for `all_candidate_docs`: one copy of each doc_id.
A Python set's iteration order is implementation defined; first-occurrence
order is used here and no proved statement depends on it. -/
def dedupF (l : List String) : List String :=
  l.foldl (fun acc x => if x ∈ acc then acc else acc ++ [x]) []

/-- `doc_ids = list(all_candidate_docs)` built from the posting keys of every
query term (`rank`, lines 35-43). -/
def candDocs (cp : List (String × Postings)) : List String :=
  dedupF (cp.flatMap fun p => p.2.map Prod.fst)

/-- `doc_to_idx[d]` (index of `d` in `doc_ids`). -/
def posOf : List String → String → Nat
  | [], _ => 0
  | x :: xs, d => if x = d then 0 else posOf xs d + 1

/-- One iteration of the `for term in query_terms` loop of `rank`:
`df = len(postings)`, `idf = np.log((N - df + 0.5)/(df + 0.5) + 1)`, and for
every `(doc_id, tf)` in the posting dict the BM25 contribution
`idf * (tf*(k1+1)) / (tf + k1*(1 - b + b*(L/avgdl)))` is added at the doc's
index (`scores[indices] += term_scores`); terms absent from
`candidate_postings` are skipped. -/
def termStep {F : Type} [LinearOrderedField F] (log : F → F)
    (doc_lengths : List (String × Nat)) (avgdl : F) (N : Nat) (k1 b : F)
    (cp : List (String × Postings)) (scores : List F) (term : String) : List F :=
  match dlookup cp term with
  | none => scores
  | some postings =>
    let docs := candDocs cp
    let idf := log (((N : F) - (postings.length : F) + 1 / 2) /
      ((postings.length : F) + 1 / 2) + 1)
    postings.foldl
      (fun sc pr =>
        let i := posOf docs pr.1
        let L : F := ((dlookup doc_lengths pr.1).getD 0 : Nat)
        let tf : F := (pr.2 : Nat)
        sc.set i (sc.getD i 0 + idf * ((tf * (k1 + 1)) / (tf + k1 * (1 - b + b * (L / avgdl))))))
      scores

/-- The score vector over `candDocs cp` produced by the query loop of `rank`,
starting from `np.zeros(num_candidates)`. -/
def rankScores {F : Type} [LinearOrderedField F] (log : F → F)
    (doc_lengths : List (String × Nat)) (avgdl : F) (N : Nat) (k1 b : F)
    (query_terms : List String) (cp : List (String × Postings)) : List F :=
  query_terms.foldl (termStep log doc_lengths avgdl N k1 b cp)
    (List.replicate (candDocs cp).length 0)

/-- `BM25Ranker.rank`: returns the top-K `(doc_id, score)` pairs, sorting the
candidate indices by score ascending (`np.argsort`; its tie order is
unspecified, modelled as a stable sort), reversed, truncated to `top_k`. -/
def rank {F : Type} [LinearOrderedField F] (log : F → F)
    (doc_lengths : List (String × Nat)) (avgdl : F) (N : Nat) (k1 b : F)
    (query_terms : List String) (cp : List (String × Postings)) (top_k : Nat) :
    List (String × F) :=
  let docs := candDocs cp
  if docs.isEmpty then []
  else
    let scores := rankScores log doc_lengths avgdl N k1 b query_terms cp
    let top := (((List.range docs.length).insertionSort
      (fun i j => scores.getD i 0 ≤ scores.getD j 0)).reverse).take top_k
    top.map fun i => (docs.getD i "", scores.getD i 0)

theorem foldl_set_length {F : Type} [LinearOrderedField F]
    (f : String × Nat → Nat) (g : List F → String × Nat → F) :
    ∀ (ps : List (String × Nat)) (sc : List F),
      (ps.foldl (fun sc pr => sc.set (f pr) (g sc pr)) sc).length = sc.length := by
  intro ps
  induction ps with
  | nil => intro sc; rfl
  | cons pr ps ih =>
    intro sc
    rw [List.foldl_cons, ih]
    simp

theorem termStep_length {F : Type} [LinearOrderedField F] (log : F → F)
    (doc_lengths : List (String × Nat)) (avgdl : F) (N : Nat) (k1 b : F)
    (cp : List (String × Postings)) (scores : List F) (term : String) :
    (termStep log doc_lengths avgdl N k1 b cp scores term).length = scores.length := by
  unfold termStep
  cases dlookup cp term with
  | none => rfl
  | some postings => exact foldl_set_length _ _ postings scores

theorem rankScores_length {F : Type} [LinearOrderedField F] (log : F → F)
    (doc_lengths : List (String × Nat)) (avgdl : F) (N : Nat) (k1 b : F)
    (query_terms : List String) (cp : List (String × Postings)) :
    (rankScores log doc_lengths avgdl N k1 b query_terms cp).length
      = (candDocs cp).length := by
  unfold rankScores
  generalize hinit : List.replicate (candDocs cp).length (0 : F) = init
  have hlen : init.length = (candDocs cp).length := by rw [← hinit]; simp
  clear hinit
  induction query_terms generalizing init with
  | nil => simpa using hlen
  | cons q qs ih =>
    rw [List.foldl_cons]
    exact ih _ (by rw [termStep_length]; exact hlen)

theorem zipWith_add_set {F : Type} [LinearOrderedField F] :
    ∀ (x y : List F) (i : Nat) (c : F),
      (List.zipWith (· + ·) x y).set i ((List.zipWith (· + ·) x y).getD i 0 + c)
        = List.zipWith (· + ·) x (y.set i (y.getD i 0 + c)) := by
  intro x
  induction x with
  | nil => intro y i c; simp
  | cons a x ih =>
    intro y i c
    cases y with
    | nil => simp
    | cons b y =>
      cases i with
      | zero => simp [List.getD, add_assoc]
      | succ i =>
        simp only [List.zipWith_cons_cons, List.set_cons_succ, List.getD,
          List.get?_eq_getElem?, List.getElem?_cons_succ]
        congr 1
        have h := ih y i c
        simpa [List.getD] using h

theorem fold_set_add {F : Type} [LinearOrderedField F]
    (f : String × Nat → Nat) (c : String × Nat → F) :
    ∀ (ps : List (String × Nat)) (x y : List F),
      ps.foldl (fun sc pr => sc.set (f pr) (sc.getD (f pr) 0 + c pr))
          (List.zipWith (· + ·) x y)
        = List.zipWith (· + ·) x
            (ps.foldl (fun sc pr => sc.set (f pr) (sc.getD (f pr) 0 + c pr)) y) := by
  intro ps
  induction ps with
  | nil => intro x y; rfl
  | cons pr ps ih =>
    intro x y
    rw [List.foldl_cons, List.foldl_cons, zipWith_add_set x y (f pr) (c pr)]
    exact ih x _

theorem termStep_add {F : Type} [LinearOrderedField F] (log : F → F)
    (doc_lengths : List (String × Nat)) (avgdl : F) (N : Nat) (k1 b : F)
    (cp : List (String × Postings)) (x y : List F) (t : String) :
    termStep log doc_lengths avgdl N k1 b cp (List.zipWith (· + ·) x y) t
      = List.zipWith (· + ·) x (termStep log doc_lengths avgdl N k1 b cp y t) := by
  unfold termStep
  cases dlookup cp t with
  | none => rfl
  | some postings => exact fold_set_add _ _ postings x y

theorem foldl_termStep_add {F : Type} [LinearOrderedField F] (log : F → F)
    (doc_lengths : List (String × Nat)) (avgdl : F) (N : Nat) (k1 b : F)
    (cp : List (String × Postings)) :
    ∀ (q : List String) (x y : List F),
      q.foldl (termStep log doc_lengths avgdl N k1 b cp) (List.zipWith (· + ·) x y)
        = List.zipWith (· + ·) x
            (q.foldl (termStep log doc_lengths avgdl N k1 b cp) y) := by
  intro q
  induction q with
  | nil => intro x y; rfl
  | cons t q ih =>
    intro x y
    rw [List.foldl_cons, List.foldl_cons,
      termStep_add log doc_lengths avgdl N k1 b cp x y t]
    exact ih x _

theorem zipWith_add_zero {F : Type} [LinearOrderedField F] :
    ∀ x : List F, List.zipWith (· + ·) x (List.replicate x.length 0) = x := by
  intro x
  induction x with
  | nil => rfl
  | cons a x ih => simp [List.replicate, ih]

theorem rankScores_append {F : Type} [LinearOrderedField F] (log : F → F)
    (doc_lengths : List (String × Nat)) (avgdl : F) (N : Nat) (k1 b : F)
    (q1 q2 : List String) (cp : List (String × Postings)) :
    rankScores log doc_lengths avgdl N k1 b (q1 ++ q2) cp
      = List.zipWith (· + ·) (rankScores log doc_lengths avgdl N k1 b q1 cp)
          (rankScores log doc_lengths avgdl N k1 b q2 cp) := by
  have step2 := foldl_termStep_add log doc_lengths avgdl N k1 b cp q2
    (rankScores log doc_lengths avgdl N k1 b q1 cp)
    (List.replicate (rankScores log doc_lengths avgdl N k1 b q1 cp).length 0)
  rw [zipWith_add_zero] at step2
  rw [rankScores_length log doc_lengths avgdl N k1 b q1 cp] at step2
  have hsplit : rankScores log doc_lengths avgdl N k1 b (q1 ++ q2) cp
      = q2.foldl (termStep log doc_lengths avgdl N k1 b cp)
          (rankScores log doc_lengths avgdl N k1 b q1 cp) := by
    unfold rankScores
    rw [List.foldl_append]
  rw [hsplit, step2]
  rfl

theorem rank_single {F : Type} [LinearOrderedField F] (log : F → F)
    (doc_lengths : List (String × Nat)) (avgdl : F) (N : Nat) (k1 b : F)
    (q : List String) (cp : List (String × Postings)) (d : String) (tk : Nat)
    (hd : candDocs cp = [d]) (htk : 0 < tk) :
    rank log doc_lengths avgdl N k1 b q cp tk
      = [(d, (rankScores log doc_lengths avgdl N k1 b q cp).getD 0 0)] := by
  obtain ⟨t, rfl⟩ : ∃ t, tk = t + 1 := ⟨tk - 1, by omega⟩
  simp only [rank, hd]
  simp [List.insertionSort, List.orderedInsert, List.getD]

/-- C3 counterexample: with a single document `d` of length 1, `avgdl = 1`,
`N = 1`, the default `k1 = 3/2`, `b = 3/4` and posting lists `a ↦ {d: 1}`,
`b ↦ {d: 1}`, `BM25Ranker.rank` scores the query `["a", "a", "b"]` differently
from its deduplication `["a", "b"]`: the loop `for term in query_terms` visits
the repeated term twice and adds its BM25 contribution twice. -/
theorem bm25_dedup_counterexample :
    rank Real.log [("d", 1)] 1 1 (3 / 2) (3 / 4) ["a", "a", "b"]
        [("a", [("d", 1)]), ("b", [("d", 1)])] 10
      ≠ rank Real.log [("d", 1)] 1 1 (3 / 2) (3 / 4) ["a", "b"]
        [("a", [("d", 1)]), ("b", [("d", 1)])] 10 := by
  have hcd : candDocs [("a", [("d", (1 : Nat))]), ("b", [("d", 1)])] = ["d"] := by decide
  have hla : dlookup [("a", [("d", (1 : Nat))]), ("b", [("d", 1)])] "a"
      = some [("d", 1)] := by decide
  have hld : dlookup [("d", (1 : Nat))] "d" = some 1 := by decide
  have ha : rankScores Real.log [("d", 1)] 1 1 (3 / 2) (3 / 4) ["a"]
      [("a", [("d", 1)]), ("b", [("d", 1)])] = [Real.log (4 / 3)] := by
    simp [rankScores, termStep, hcd, hla, hld, posOf, List.replicate, List.getD]
    norm_num
  have hlen : (rankScores Real.log [("d", 1)] 1 1 (3 / 2) (3 / 4) ["a", "b"]
      [("a", [("d", 1)]), ("b", [("d", 1)])]).length = 1 := by
    rw [rankScores_length, hcd]
    rfl
  obtain ⟨v, hv⟩ := List.length_eq_one.mp hlen
  have hadd := rankScores_append Real.log [("d", 1)] 1 1 (3 / 2) (3 / 4)
    ["a"] ["a", "b"] [("a", [("d", 1)]), ("b", [("d", 1)])]
  rw [ha, hv] at hadd
  have haab : rankScores Real.log [("d", 1)] 1 1 (3 / 2) (3 / 4) ["a", "a", "b"]
      [("a", [("d", 1)]), ("b", [("d", 1)])] = [Real.log (4 / 3) + v] := by
    rw [show (["a", "a", "b"] : List String) = ["a"] ++ ["a", "b"] from rfl, hadd]
    rfl
  have h1 := rank_single Real.log [("d", 1)] 1 1 (3 / 2) (3 / 4) ["a", "a", "b"]
    [("a", [("d", 1)]), ("b", [("d", 1)])] "d" 10 hcd (by omega)
  have h2 := rank_single Real.log [("d", 1)] 1 1 (3 / 2) (3 / 4) ["a", "b"]
    [("a", [("d", 1)]), ("b", [("d", 1)])] "d" 10 hcd (by omega)
  rw [h1, h2, haab, hv]
  intro heq
  have hs : Real.log (4 / 3) + v = v := by
    simpa [List.getD] using heq
  have hpos : 0 < Real.log (4 / 3) := Real.log_pos (by norm_num)
  linarith

/-- C3 amended: `BM25Ranker.rank` does not deduplicate the query. Its score
vector is additive over query-term occurrences — the scores of a concatenated
query are the pointwise sums of the scores of its parts — so a term repeated
`k` times contributes its BM25 increment `k` times, not once. -/
theorem bm25_scores_additive {F : Type} [LinearOrderedField F] (log : F → F)
    (doc_lengths : List (String × Nat)) (avgdl : F) (N : Nat) (k1 b : F)
    (q1 q2 : List String) (cp : List (String × Postings)) :
    rankScores log doc_lengths avgdl N k1 b (q1 ++ q2) cp
      = List.zipWith (· + ·) (rankScores log doc_lengths avgdl N k1 b q1 cp)
          (rankScores log doc_lengths avgdl N k1 b q2 cp) :=
  rankScores_append log doc_lengths avgdl N k1 b q1 q2 cp

theorem dedup_foldl_length (l : List String) :
    ∀ acc : List String,
      acc.length ≤ (l.foldl (fun acc x => if x ∈ acc then acc else acc ++ [x]) acc).length := by
  induction l with
  | nil => intro acc; exact le_refl _
  | cons x l ih =>
    intro acc
    rw [List.foldl_cons]
    refine le_trans ?_ (ih _)
    by_cases h : x ∈ acc
    · rw [if_pos h]
    · rw [if_neg h]
      simp

theorem dedupF_eq_nil_iff (l : List String) : dedupF l = [] ↔ l = [] := by
  constructor
  · intro h
    cases l with
    | nil => rfl
    | cons x xs =>
      exfalso
      have h0 : (if x ∈ ([] : List String) then ([] : List String) else [] ++ [x])
          = [x] := by simp
      have h1 := dedup_foldl_length xs [x]
      unfold dedupF at h
      rw [List.foldl_cons, h0] at h
      rw [h] at h1
      simp at h1
  · intro h
    subst h
    rfl

theorem candDocs_eq_nil_iff (cp : List (String × Postings)) :
    candDocs cp = [] ↔ cp.flatMap (fun p => p.2.map Prod.fst) = [] :=
  dedupF_eq_nil_iff _

/-- C4 amended: for every input with `1 ≤ top_k`, `BM25Ranker.rank` returns at
most `top_k` `(doc_id, score)` pairs sorted in descending — but, because
`np.argsort` leaves tied scores adjacent, not strictly descending — score
order, and returns the empty list exactly when the union of the doc_id key
sets of the supplied posting lists is empty. -/
theorem rank_output_shape {F : Type} [LinearOrderedField F] (log : F → F)
    (doc_lengths : List (String × Nat)) (avgdl : F) (N : Nat) (k1 b : F)
    (q : List String) (cp : List (String × Postings)) (tk : Nat) (htk : 1 ≤ tk) :
    (rank log doc_lengths avgdl N k1 b q cp tk).length ≤ tk ∧
    List.Pairwise (fun x y : String × F => y.2 ≤ x.2)
      (rank log doc_lengths avgdl N k1 b q cp tk) ∧
    (rank log doc_lengths avgdl N k1 b q cp tk = []
      ↔ cp.flatMap (fun p => p.2.map Prod.fst) = []) := by
  cases hcd : candDocs cp with
  | nil =>
    have hr : rank log doc_lengths avgdl N k1 b q cp tk = [] := by
      simp [rank, hcd]
    rw [hr]
    refine ⟨by simp, by simp, ?_⟩
    have hfm : cp.flatMap (fun p => p.2.map Prod.fst) = [] :=
      (candDocs_eq_nil_iff cp).mp hcd
    simp [hfm]
  | cons d ds =>
    simp only [rank, hcd, List.isEmpty_cons, Bool.false_eq_true, if_false]
    refine ⟨?_, ?_, ?_⟩
    · simp only [List.length_map, List.length_take]
      exact le_trans (min_le_left _ _) (le_refl _)
    · have hs : List.Pairwise
          (fun i j => (rankScores log doc_lengths avgdl N k1 b q cp).getD i 0
            ≤ (rankScores log doc_lengths avgdl N k1 b q cp).getD j 0)
          ((List.range (d :: ds).length).insertionSort
            (fun i j => (rankScores log doc_lengths avgdl N k1 b q cp).getD i 0
              ≤ (rankScores log doc_lengths avgdl N k1 b q cp).getD j 0)) := by
        haveI : IsTotal Nat
            (fun i j => (rankScores log doc_lengths avgdl N k1 b q cp).getD i 0
              ≤ (rankScores log doc_lengths avgdl N k1 b q cp).getD j 0) :=
          ⟨fun a b => le_total _ _⟩
        haveI : IsTrans Nat
            (fun i j => (rankScores log doc_lengths avgdl N k1 b q cp).getD i 0
              ≤ (rankScores log doc_lengths avgdl N k1 b q cp).getD j 0) :=
          ⟨fun a b c h1 h2 => le_trans h1 h2⟩
        exact List.sorted_insertionSort _ _
      have hrev : List.Pairwise
          (fun i j => (rankScores log doc_lengths avgdl N k1 b q cp).getD j 0
            ≤ (rankScores log doc_lengths avgdl N k1 b q cp).getD i 0)
          ((List.range (d :: ds).length).insertionSort
            (fun i j => (rankScores log doc_lengths avgdl N k1 b q cp).getD i 0
              ≤ (rankScores log doc_lengths avgdl N k1 b q cp).getD j 0)).reverse :=
        (List.pairwise_reverse).mpr hs
      have htake := List.Pairwise.sublist (List.take_sublist tk _) hrev
      exact List.Pairwise.map _ (fun a b h => h) htake
    · constructor
      · intro h
        exfalso
        have hlen := congrArg List.length h
        simp only [List.length_map, List.length_take, List.length_reverse,
          List.length_insertionSort, List.length_range, List.length_nil] at hlen
        simp only [List.length_cons] at hlen
        omega
      · intro h
        exfalso
        have h0 : candDocs cp = [] := (candDocs_eq_nil_iff cp).mpr h
        rw [hcd] at h0
        exact absurd h0 (by simp)

/-- C4 counterexample: with two documents of equal length containing the query
term with the same tf, both receive the same BM25 score, so the returned list
has a tie and is not strictly descending. -/
theorem rank_strict_descending_counterexample :
    ¬ List.Pairwise (fun x y : String × ℝ => y.2 < x.2)
      (rank Real.log [("a", 1), ("b", 1)] 1 2 (3 / 2) (3 / 4) ["t"]
        [("t", [("a", 1), ("b", 1)])] 10) := by
  intro hpw
  have hcd : candDocs [("t", [("a", (1 : Nat)), ("b", 1)])] = ["a", "b"] := by decide
  have hlt : dlookup [("t", [("a", (1 : Nat)), ("b", 1)])] "t"
      = some [("a", 1), ("b", 1)] := by decide
  have hla : dlookup [("a", (1 : Nat)), ("b", 1)] "a" = some 1 := by decide
  have hlb : dlookup [("a", (1 : Nat)), ("b", 1)] "b" = some 1 := by decide
  have hpa : posOf ["a", "b"] "a" = 0 := by decide
  have hpb : posOf ["a", "b"] "b" = 1 := by decide
  have hr2 : List.range 2 = [0, 1] := by decide
  have hsc : rankScores Real.log [("a", 1), ("b", 1)] 1 2 (3 / 2) (3 / 4) ["t"]
      [("t", [("a", 1), ("b", 1)])] = [Real.log (6 / 5), Real.log (6 / 5)] := by
    simp [rankScores, termStep, hcd, hlt, hla, hlb, hpa, hpb, List.replicate,
      List.getD]
    norm_num
  have hrank : rank Real.log [("a", 1), ("b", 1)] 1 2 (3 / 2) (3 / 4) ["t"]
      [("t", [("a", 1), ("b", 1)])] 10
      = [("b", Real.log (6 / 5)), ("a", Real.log (6 / 5))] := by
    simp [rank, hcd, hsc, hr2, List.insertionSort, List.orderedInsert, List.getD]
  rw [hrank] at hpw
  cases hpw with
  | cons h1 h2 => exact lt_irrefl _ (h1 ("a", Real.log (6 / 5)) (List.mem_cons_self _ _))

theorem rank_output_shape_witness :
    (1 ≤ 3) ∧
    ((rank (fun x : ℚ => x) [("a", 1)] 1 1 (3 / 2) (3 / 4) ["t"]
        [("t", [("a", 1)])] 3).length ≤ 3 ∧
      List.Pairwise (fun x y : String × ℚ => y.2 ≤ x.2)
        (rank (fun x : ℚ => x) [("a", 1)] 1 1 (3 / 2) (3 / 4) ["t"]
          [("t", [("a", 1)])] 3) ∧
      (rank (fun x : ℚ => x) [("a", 1)] 1 1 (3 / 2) (3 / 4) ["t"]
          [("t", [("a", 1)])] 3 = []
        ↔ [("t", [("a", 1)])].flatMap (fun p => p.2.map Prod.fst) = [])) :=
  ⟨by decide,
    rank_output_shape (fun x : ℚ => x) [("a", 1)] 1 1 (3 / 2) (3 / 4) ["t"]
      [("t", [("a", 1)])] 3 (by decide)⟩
